import Mathlib

/-!
# Verification of the minesweeper game engine (`src/index.ts`)

This file gives a shallow embedding of the minesweeper engine of the
Cloudflare-worker Telegram bot: board generation (`createNewGame`,
`calculateNumbers`), the bounded flood-fill reveal (`revealEmpty`), the
chord / auto-flag logic, the win check, and the JSON persistence codec,
together with theorems settling the specification claims.

Modelling conventions:
* The 8×8 grids (`board`, `mask`, `flags`) are modelled as total functions
  `Fin 8 → Fin 8 → α`; the TypeScript code only ever reads or writes them
  through bounds-guarded accesses, which are modelled by `maskAtB`,
  `flagsAtB`, `boardAt`, `setMask`, `setFlag` below.  A JavaScript access
  `a[i][j]` with `i` in range but `j` out of range yields `undefined`,
  which is falsy and compares false with every number; the `…AtB` accessors
  return `false` / `none` in that case, mirroring this.  An access with the
  *row* out of range throws a `TypeError`; `handleCellAction` returns
  `Except.error ()` there.
* `Math.random`-based mine placement is modelled by a parameter
  `mines : Fin 8 → Fin 8 → Bool`: the rejection-sampling loop's only
  observable outcome is the set of distinct cells set to `-1`.
* `Date.now()` is threaded as an explicit `now : Int` argument.
* The recursive flood fill terminates in JavaScript because each recursive
  step first reveals a hidden cell; the embedding uses an explicit fuel
  parameter `FUEL = 65`, strictly larger than the 64 cells of the grid, so
  the fuel-exhaustion branch is unreachable (each nesting level of the
  recursion has revealed at least one more cell).
-/

namespace Minesweeper

/-- `GAME_CONFIG.ROWS`. -/
def ROWS : Int := 8

/-- `GAME_CONFIG.COLS`. -/
def COLS : Int := 8

/-- `GAME_CONFIG.MINES`. -/
def MINES : Nat := 10

/-- `GAME_CONFIG.MAX_REVEALS`. -/
def MAX_REVEALS : Int := 50

/-- The eight neighbor directions, in the source's order. -/
def DIRECTIONS : List (Int × Int) :=
  [(-1, -1), (-1, 0), (-1, 1), (0, -1), (0, 1), (1, -1), (1, 0), (1, 1)]

/-- `isValidPosition(row, col)`. -/
def isValidPosition (row col : Int) : Bool :=
  decide (0 ≤ row ∧ row < ROWS ∧ 0 ≤ col ∧ col < COLS)

/-- Convert an `Int` coordinate to a grid index, `none` when out of range. -/
def toIdx (i : Int) : Option (Fin 8) :=
  if h : 0 ≤ i ∧ i < 8 then some ⟨i.toNat, by omega⟩ else none

/-- Update one entry of a grid. -/
def setG {α : Type} (g : Fin 8 → Fin 8 → α) (i j : Fin 8) (v : α) :
    Fin 8 → Fin 8 → α :=
  fun i' j' => if i' = i ∧ j' = j then v else g i' j'

/-- The game state stored in the KV store (`createNewGame`'s literal). -/
structure Game where
  board : Fin 8 → Fin 8 → Int
  mask : Fin 8 → Fin 8 → Bool
  flags : Fin 8 → Fin 8 → Bool
  gameOver : Bool
  won : Bool
  startTime : Int
  moves : Int
  endTime : Option Int
deriving DecidableEq

/-- `game.mask[row][col]` as a boolean (JS `undefined` is falsy). -/
def maskAtB (g : Game) (row col : Int) : Bool :=
  match toIdx row, toIdx col with
  | some i, some j => g.mask i j
  | _, _ => false

/-- `game.flags[row][col]` as a boolean (JS `undefined` is falsy). -/
def flagsAtB (g : Game) (row col : Int) : Bool :=
  match toIdx row, toIdx col with
  | some i, some j => g.flags i j
  | _, _ => false

/-- `game.board[row][col]`, `none` when the access yields `undefined`. -/
def boardAt (g : Game) (row col : Int) : Option Int :=
  match toIdx row, toIdx col with
  | some i, some j => some (g.board i j)
  | _, _ => none

/-- `game.mask[row][col] = true` (only reached with in-range coordinates). -/
def setMask (g : Game) (row col : Int) : Game :=
  match toIdx row, toIdx col with
  | some i, some j => { g with mask := setG g.mask i j true }
  | _, _ => g

/-- `game.flags[r][c] = true` (only reached with in-range coordinates). -/
def setFlag (g : Game) (row col : Int) : Game :=
  match toIdx row, toIdx col with
  | some i, some j => { g with flags := setG g.flags i j true }
  | _, _ => g

/-- All 64 cells in row-major order, as the loops of the source visit them. -/
def allCells : List (Fin 8 × Fin 8) :=
  (List.finRange 8).flatMap fun i => (List.finRange 8).map fun j => (i, j)

/-- The inner loop of `calculateNumbers`: the number of in-bounds
8-directional neighbors of `(row, col)` currently holding `-1`. -/
def countAdjMines (b : Fin 8 → Fin 8 → Int) (row col : Int) : Nat :=
  DIRECTIONS.countP fun d =>
    match toIdx (row + d.1), toIdx (col + d.2) with
    | some i, some j => decide (b i j = -1)
    | _, _ => false

/-- One step of `calculateNumbers`: overwrite a non-mine cell with its
neighbor-mine count. -/
def calcStep (b : Fin 8 → Fin 8 → Int) (p : Fin 8 × Fin 8) :
    Fin 8 → Fin 8 → Int :=
  if b p.1 p.2 = -1 then b
  else setG b p.1 p.2 (countAdjMines b (p.1 : Int) (p.2 : Int))

/-- `calculateNumbers(board)`: visit every cell in row-major order, replacing
each non-mine cell's value by its current neighbor-mine count (in place). -/
def calculateNumbers (b : Fin 8 → Fin 8 → Int) : Fin 8 → Fin 8 → Int :=
  allCells.foldl calcStep b

/-- The board right after the mine-placement loop of `createNewGame`:
sampled cells hold `-1`, all others hold `0`. -/
def initialBoard (mines : Fin 8 → Fin 8 → Bool) : Fin 8 → Fin 8 → Int :=
  fun i j => if mines i j then -1 else 0

/-- `createNewGame()`.  The rejection-sampling loop is abstracted by the
predicate `mines` describing which distinct cells ended up holding `-1`;
`now` stands for `Date.now()`. -/
def createNewGame (mines : Fin 8 → Fin 8 → Bool) (now : Int) : Game where
  board := calculateNumbers (initialBoard mines)
  mask := fun _ _ => false
  flags := fun _ _ => false
  gameOver := false
  won := false
  startTime := now
  moves := 0
  endTime := none

/-- Fuel bound for the flood fill: strictly more than the 64 grid cells, so
the fuel can never run out (each recursion level has revealed a fresh cell). -/
def FUEL : Nat := 65

/-- `revealEmpty(game, row, col, maxReveals)`, with explicit fuel.  The
short-circuit guard, the reveal, the budget decrement and the recursion over
the eight neighbors (threading the shrinking budget in direction order)
follow the source line by line; the fold over `DIRECTIONS` is the
`for (const [dx, dy] of DIRECTIONS)` loop. -/
def revealEmptyF (fuel : Nat) (g : Game) (row col : Int) (m : Int) :
    Game × Int :=
  match fuel with
  | 0 => (g, m)
  | fuel' + 1 =>
    if !isValidPosition row col || maskAtB g row col || flagsAtB g row col
        || decide (m ≤ 0) then
      (g, m)
    else
      let g1 := setMask g row col
      let m1 := m - 1
      if boardAt g1 row col = some 0 then
        DIRECTIONS.foldl
          (fun p d => revealEmptyF fuel' p.1 (row + d.1) (col + d.2) p.2)
          (g1, m1)
      else
        (g1, m1)

/-- `revealEmpty` with the fuel instantiated (the fuel-out branch is
unreachable, see `FUEL`). -/
def revealEmpty (g : Game) (row col : Int) (m : Int) : Game × Int :=
  revealEmptyF FUEL g row col m

/-- The flag-counting part of the neighbor scan shared by the chord branch
(lines 229–243) and `autoFlag` (lines 85–101): the number of in-bounds
neighbors currently flagged. -/
def flagCount (g : Game) (row col : Int) : Nat :=
  DIRECTIONS.countP fun d => flagsAtB g (row + d.1) (col + d.2)

/-- The hidden-cell part of the same neighbor scan: in-bounds neighbors that
are neither flagged nor revealed, in direction order (`unopenedCells` in the
chord branch, `hiddenPositions` in `autoFlag`). -/
def unopenedCells (g : Game) (row col : Int) : List (Int × Int) :=
  DIRECTIONS.filterMap fun d =>
    let nr := row + d.1
    let nc := col + d.2
    if isValidPosition nr nc && !flagsAtB g nr nc && !maskAtB g nr nc then
      some (nr, nc)
    else
      none

/-- `autoFlag(game, row, col)`: returns the updated game and the boolean the
source returns.  The guard `!game.mask[row][col] || game.board[row][col] <= 0`
is modelled with the JS comparison semantics (`undefined <= 0` is false, but
`mask` true already forces the position in range). -/
def autoFlag (g : Game) (row col : Int) : Game × Bool :=
  if !maskAtB g row col then (g, false)
  else
    match boardAt g row col with
    | none => (g, false)
    | some v =>
      if v ≤ 0 then (g, false)
      else
        let fc := flagCount g row col
        let hidden := unopenedCells g row col
        if 0 < hidden.length ∧ v - (fc : Int) = (hidden.length : Int) then
          (hidden.foldl (fun g' p => setFlag g' p.1 p.2) g, true)
        else
          (g, false)

/-- The end-of-game mine disclosure (lines 260–266 and 287–293): set the mask
of every mine cell. -/
def revealAllMines (g : Game) : Game :=
  { g with mask := fun i j => if g.board i j = -1 then true else g.mask i j }

/-- The loop of the safe chord branch: `for ([r, c] of unopenedCells)
revealEmpty(game, r, c)` — each call with the default budget `MAX_REVEALS`. -/
def revealEach (g : Game) (ps : List (Int × Int)) : Game :=
  ps.foldl (fun g' p => (revealEmpty g' p.1 p.2 MAX_REVEALS).1) g

/-- `game.board[row][col] > 0` with JS semantics (`undefined > 0` is false). -/
def boardGtZero (o : Option Int) : Bool :=
  match o with
  | some v => decide (0 < v)
  | none => false

/-- The chord branch (lines 228–279): a click on a revealed, positive cell. -/
def chordAction (g : Game) (row col now : Int) : Game :=
  let fc := flagCount g row col
  let unopened := unopenedCells g row col
  if boardAt g row col = some (fc : Int) then
    if unopened.any fun p => decide (boardAt g p.1 p.2 = some (-1)) then
      revealAllMines { g with gameOver := true, endTime := some now }
    else
      let g1 := revealEach g unopened
      if 0 < unopened.length then { g1 with moves := g1.moves + 1 } else g1
  else
    match autoFlag g row col with
    | (g', true) => { g' with moves := g'.moves + 1 }
    | (g', false) => g'

/-- The direct-click branch (lines 280–297): the cell is not a revealed
positive number and is not flagged. -/
def directAction (g : Game) (row col now : Int) : Game :=
  let g1 := { g with moves := g.moves + 1 }
  if boardAt g1 row col = some (-1) then
    revealAllMines { g1 with gameOver := true, endTime := some now }
  else
    (revealEmpty g1 row col MAX_REVEALS).1

/-- Dispatch of a cell click (lines 228, 280): chord when the cell is
revealed and positive, direct click when it is not flagged, otherwise
nothing. -/
def clickAction (g : Game) (row col now : Int) : Game :=
  if maskAtB g row col && boardGtZero (boardAt g row col) then
    chordAction g row col now
  else if flagsAtB g row col = false then
    directAction g row col now
  else
    g

/-- `totalFlags` of the win check (lines 301–312). -/
def totalFlags (g : Game) : Nat :=
  allCells.countP fun p => g.flags p.1 p.2

/-- `correctFlags` of the win check (lines 301–312). -/
def correctFlags (g : Game) : Nat :=
  allCells.countP fun p => g.flags p.1 p.2 && decide (g.board p.1 p.2 = -1)

/-- The win condition of lines 314–318. -/
def winCond (g : Game) : Prop :=
  correctFlags g = MINES ∧ totalFlags g = MINES

instance (g : Game) : Decidable (winCond g) := by
  unfold winCond; infer_instance

/-- The win check (lines 300–319). -/
def checkWin (g : Game) (now : Int) : Game :=
  if g.gameOver then g
  else if winCond g then
    { g with gameOver := true, won := true, endTime := some now }
  else g

/-- One cell-action request (lines 212–321), as the state that ends up in
storage.  A finished game and a game whose `row` is in range are persisted
(`Except.ok`); an out-of-range `row` makes `game.mask[row][col]` throw a
`TypeError` before anything is mutated (`Except.error`), so storage keeps
the old state. -/
def handleCellAction (g : Game) (row col now : Int) : Except Unit Game :=
  if g.gameOver then Except.ok g
  else if (toIdx row).isSome then
    Except.ok (checkWin (clickAction g row col now) now)
  else
    Except.error ()

/-! ## Basic grid lemmas -/

theorem setG_same {α : Type} (g : Fin 8 → Fin 8 → α) (i j : Fin 8) (v : α) :
    setG g i j v i j = v := by
  simp [setG]

theorem setG_other {α : Type} (g : Fin 8 → Fin 8 → α) (i j i' j' : Fin 8)
    (v : α) (h : ¬(i' = i ∧ j' = j)) : setG g i j v i' j' = g i' j' := by
  simp only [setG, if_neg h]

theorem mem_allCells (p : Fin 8 × Fin 8) : p ∈ allCells := by
  unfold allCells
  simp only [List.mem_flatMap, List.mem_map, List.mem_finRange]
  exact ⟨p.1, trivial, p.2, trivial, rfl⟩

theorem allCells_nodup : allCells.Nodup := by decide

/-! ## Board generation (`createNewGame` / `calculateNumbers`) -/

theorem calcStep_neg_iff (b : Fin 8 → Fin 8 → Int) (p : Fin 8 × Fin 8)
    (i j : Fin 8) : calcStep b p i j = -1 ↔ b i j = -1 := by
  unfold calcStep
  split
  · rfl
  · rename_i hmine
    by_cases hij : i = p.1 ∧ j = p.2
    · obtain ⟨hi, hj⟩ := hij
      subst hi; subst hj
      rw [setG_same]
      constructor
      · intro h; omega
      · intro h; exact absurd h hmine
    · rw [setG_other _ _ _ _ _ _ hij]

theorem foldl_calcStep_neg_iff (cells : List (Fin 8 × Fin 8)) :
    ∀ (b : Fin 8 → Fin 8 → Int) (i j : Fin 8),
      cells.foldl calcStep b i j = -1 ↔ b i j = -1 := by
  induction cells with
  | nil => intro b i j; rfl
  | cons q rest ih =>
    intro b i j
    simpa [List.foldl_cons] using
      (ih (calcStep b q) i j).trans (calcStep_neg_iff b q i j)

theorem countAdjMines_congr (b1 b2 : Fin 8 → Fin 8 → Int) (row col : Int)
    (h : ∀ i j : Fin 8, b1 i j = -1 ↔ b2 i j = -1) :
    countAdjMines b1 row col = countAdjMines b2 row col := by
  unfold countAdjMines
  refine List.countP_congr fun d _ => ?_
  cases toIdx (row + d.1) <;> cases toIdx (col + d.2) <;> simp [h]

theorem foldl_calcStep_notmem (cells : List (Fin 8 × Fin 8)) :
    ∀ (b : Fin 8 → Fin 8 → Int) (p : Fin 8 × Fin 8), p ∉ cells →
      cells.foldl calcStep b p.1 p.2 = b p.1 p.2 := by
  induction cells with
  | nil => intro b p _; rfl
  | cons q rest ih =>
    intro b p hp
    rw [List.mem_cons, not_or] at hp
    rw [List.foldl_cons, ih _ _ hp.2]
    unfold calcStep
    split
    · rfl
    · refine setG_other _ _ _ _ _ _ fun hij => hp.1 ?_
      obtain ⟨h1, h2⟩ := hij
      exact Prod.ext h1 h2

theorem foldl_calcStep_value (cells : List (Fin 8 × Fin 8)) :
    ∀ (b : Fin 8 → Fin 8 → Int), cells.Nodup → ∀ p ∈ cells,
      b p.1 p.2 ≠ -1 →
      cells.foldl calcStep b p.1 p.2 =
        ((countAdjMines (cells.foldl calcStep b) (p.1 : Nat) (p.2 : Nat) : Nat) : Int) := by
  induction cells with
  | nil => intro b _ p hp; exact absurd hp (List.not_mem_nil p)
  | cons q rest ih =>
    intro b hnd p hp hbp
    rw [List.nodup_cons] at hnd
    rw [List.foldl_cons]
    rcases List.mem_cons.mp hp with hq | hrest
    · subst hq
      have hstep : calcStep b p p.1 p.2 =
          ((countAdjMines b (p.1 : Nat) (p.2 : Nat) : Nat) : Int) := by
        unfold calcStep
        rw [if_neg hbp]
        exact setG_same _ _ _ _
      have hkeep := foldl_calcStep_notmem rest (calcStep b p) p hnd.1
      rw [hkeep, hstep]
      congr 1
      refine countAdjMines_congr _ _ _ _ fun i j => ?_
      exact ((foldl_calcStep_neg_iff rest (calcStep b p) i j).trans
        (calcStep_neg_iff b p i j)).symm
    · have hbp1 : calcStep b q p.1 p.2 ≠ -1 := fun h =>
        hbp ((calcStep_neg_iff b q p.1 p.2).mp h)
      exact ih (calcStep b q) hnd.2 p hrest hbp1

set_option maxRecDepth 4000 in
/-- **C1.** For every generated board (`createNewGame` followed by
`calculateNumbers`, with the random sampling abstracted as any set of
`MINES` distinct cells), exactly `MINES` cells hold `-1`, and every other
cell holds exactly the number of its in-bounds 8-directional neighbors
holding `-1`. -/
theorem C1_generation_invariant (mines : Fin 8 → Fin 8 → Bool) (now : Int)
    (h : allCells.countP (fun p => mines p.1 p.2) = MINES) :
    allCells.countP
        (fun p => decide ((createNewGame mines now).board p.1 p.2 = -1)) = MINES ∧
    ∀ i j : Fin 8, (createNewGame mines now).board i j ≠ -1 →
      (createNewGame mines now).board i j =
        ((countAdjMines (createNewGame mines now).board (i : Nat) (j : Nat) : Nat) : Int) := by
  have hboard : (createNewGame mines now).board =
      allCells.foldl calcStep (initialBoard mines) := rfl
  constructor
  · rw [hboard, ← h]
    refine List.countP_congr fun p _ => ?_
    rw [decide_eq_true_eq]
    rw [foldl_calcStep_neg_iff]
    unfold initialBoard
    by_cases hm : mines p.1 p.2 <;> simp [hm]
  · intro i j hne
    rw [hboard] at hne ⊢
    have hne0 : initialBoard mines (i, j).1 (i, j).2 ≠ -1 := fun hc =>
      hne ((foldl_calcStep_neg_iff allCells (initialBoard mines) i j).mpr hc)
    exact foldl_calcStep_value allCells (initialBoard mines) allCells_nodup
      (i, j) (mem_allCells _) hne0

/-- Concrete mine layout for the `C1` witness: the whole first row and the
first two cells of the second row. -/
def witMines : Fin 8 → Fin 8 → Bool :=
  fun i j => decide ((i : Nat) = 0) || decide ((i : Nat) = 1 ∧ (j : Nat) ≤ 1)

/-- Witness for `C1_generation_invariant` at a concrete mine layout. -/
theorem C1_generation_invariant_wit :
    allCells.countP (fun p => witMines p.1 p.2) = MINES ∧
    (allCells.countP
        (fun p => decide ((createNewGame witMines 0).board p.1 p.2 = -1)) = MINES ∧
      ∀ i j : Fin 8, (createNewGame witMines 0).board i j ≠ -1 →
        (createNewGame witMines 0).board i j =
          ((countAdjMines (createNewGame witMines 0).board (i : Nat) (j : Nat) : Nat) : Int)) :=
  ⟨by decide, C1_generation_invariant witMines 0 (by decide)⟩

/-! ## The persistence codec (`JSON.stringify` / `JSON.parse`)

The string layer of JSON is abstracted by a tree of JSON values: `encodeGame`
is the document `JSON.stringify(game)` produces (note: a field holding
`undefined`, here `endTime : none`, is *omitted* by `JSON.stringify`), and
`decodeGame` reads the parsed document back as a `Game`, as the handler's
field accesses do.  All numbers in a game state are integers well below
2^53, so modelling JSON numbers as `Int` is exact. -/

/-- JSON documents (string leaves never occur in a serialized game). -/
inductive Json where
  | null : Json
  | bool : Bool → Json
  | num : Int → Json
  | arr : List Json → Json
  | obj : List (String × Json) → Json

/-- Serialize a boolean grid as an array of arrays. -/
def encBoolGrid (f : Fin 8 → Fin 8 → Bool) : Json :=
  Json.arr (List.ofFn fun i : Fin 8 =>
    Json.arr (List.ofFn fun j : Fin 8 => Json.bool (f i j)))

/-- Serialize the integer board as an array of arrays. -/
def encIntGrid (f : Fin 8 → Fin 8 → Int) : Json :=
  Json.arr (List.ofFn fun i : Fin 8 =>
    Json.arr (List.ofFn fun j : Fin 8 => Json.num (f i j)))

/-- `JSON.stringify(game)`: the object fields in the literal's insertion
order; `endTime: undefined` is dropped. -/
def encodeGame (g : Game) : Json :=
  Json.obj
    ([("board", encIntGrid g.board), ("mask", encBoolGrid g.mask),
      ("flags", encBoolGrid g.flags), ("gameOver", Json.bool g.gameOver),
      ("won", Json.bool g.won), ("startTime", Json.num g.startTime),
      ("moves", Json.num g.moves)] ++
      match g.endTime with
      | some t => [("endTime", Json.num t)]
      | none => [])

/-- Property lookup on a parsed JSON object. -/
def lookupField : List (String × Json) → String → Option Json
  | [], _ => none
  | (k, v) :: rest, key => if k = key then some v else lookupField rest key

/-- Read a JSON boolean. -/
def decBool : Json → Option Bool
  | Json.bool b => some b
  | _ => none

/-- Read a JSON number. -/
def decNum : Json → Option Int
  | Json.num n => some n
  | _ => none

/-- Read every element of a JSON array. -/
def decList {α : Type} (dec : Json → Option α) : List Json → Option (List α)
  | [] => some []
  | j :: js =>
    match dec j, decList dec js with
    | some a, some as => some (a :: as)
    | _, _ => none

/-- Read a row of a serialized grid. -/
def decRow {α : Type} (dec : Json → Option α) : Json → Option (List α)
  | Json.arr cells => decList dec cells
  | _ => none

/-- Read a serialized grid back as a function (positional array access, as
the handler's `grid[i][j]` reads do). -/
def decGrid {α : Type} (dflt : α) (dec : Json → Option α) : Json → Option (Fin 8 → Fin 8 → α)
  | Json.arr rows =>
    match decList (decRow dec) rows with
    | some rss => some fun i j => ((rss.getD (i : Nat) []).getD (j : Nat) dflt)
    | none => none
  | _ => none

/-- `JSON.parse` composed with the handler's reading of the parsed object as
a game state; the absence of the `endTime` property reads back as
`undefined`, i.e. `none`. -/
def decodeGame (j : Json) : Option Game :=
  match j with
  | Json.obj fields => do
    let jb ← lookupField fields "board"
    let b ← decGrid 0 decNum jb
    let jm ← lookupField fields "mask"
    let m ← decGrid false decBool jm
    let jf ← lookupField fields "flags"
    let f ← decGrid false decBool jf
    let jgo ← lookupField fields "gameOver"
    let go ← decBool jgo
    let jw ← lookupField fields "won"
    let w ← decBool jw
    let jst ← lookupField fields "startTime"
    let st ← decNum jst
    let jmv ← lookupField fields "moves"
    let mv ← decNum jmv
    pure
      { board := b, mask := m, flags := f, gameOver := go, won := w,
        startTime := st, moves := mv,
        endTime :=
          match lookupField fields "endTime" with
          | some (Json.num t) => some t
          | _ => none }
  | _ => none

theorem decList_map {α : Type} (dec : Json → Option α) (enc : α → Json)
    (henc : ∀ a, dec (enc a) = some a) :
    ∀ l : List α, decList dec (l.map enc) = some l := by
  intro l
  induction l with
  | nil => rfl
  | cons a as ih => simp [decList, henc, ih]

theorem getD_ofFn_val {α : Type} (f : Fin 8 → α) (i : Fin 8) (d : α) :
    (List.ofFn f).getD (i : Nat) d = f i := by
  rw [List.getD_eq_getElem?_getD, List.getElem?_ofFn]
  simp [List.ofFnNthVal, i.isLt]

theorem decGrid_enc {α : Type} (dflt : α) (dec : Json → Option α)
    (enc : α → Json) (henc : ∀ a, dec (enc a) = some a)
    (f : Fin 8 → Fin 8 → α) :
    decGrid dflt dec
      (Json.arr (List.ofFn fun i : Fin 8 =>
        Json.arr (List.ofFn fun j : Fin 8 => enc (f i j)))) = some f := by
  have hrow : ∀ i : Fin 8,
      decRow dec (Json.arr (List.ofFn fun j : Fin 8 => enc (f i j))) =
        some (List.ofFn (f i)) := by
    intro i
    have : (List.ofFn fun j : Fin 8 => enc (f i j)) = (List.ofFn (f i)).map enc := by
      rw [List.map_ofFn]; rfl
    rw [decRow, this, decList_map dec enc henc]
  have hrows : decList (decRow dec)
      (List.ofFn fun i : Fin 8 =>
        Json.arr (List.ofFn fun j : Fin 8 => enc (f i j))) =
      some (List.ofFn fun i => List.ofFn (f i)) := by
    have : (List.ofFn fun i : Fin 8 =>
        Json.arr (List.ofFn fun j : Fin 8 => enc (f i j))) =
        (List.ofFn fun i : Fin 8 => List.ofFn (f i)).map
          (fun r => Json.arr (r.map enc)) := by
      rw [List.map_ofFn]
      refine congrArg List.ofFn (funext fun i => ?_)
      simp only [Function.comp]
      rw [List.map_ofFn]; rfl
    rw [this]
    refine decList_map (decRow dec) (fun r => Json.arr (r.map enc)) ?_ _
    intro r
    rw [decRow, decList_map dec enc henc]
  rw [decGrid, hrows]
  refine congrArg some (funext fun i => funext fun j => ?_)
  rw [getD_ofFn_val (fun i => List.ofFn (f i)) i []]
  exact getD_ofFn_val (f i) j dflt

/-- **C5.** Decoding the encoding of a game state yields the state back,
field for field: the three grids, both booleans, both counters, and the
presence or absence of `endTime` are all preserved. -/
theorem C5_codec_round_trip (g : Game) : decodeGame (encodeGame g) = some g := by
  obtain ⟨b, m, f, go, w, st, mv, et⟩ := g
  cases et with
  | none =>
    show decodeGame (Json.obj [("board", encIntGrid b), ("mask", encBoolGrid m),
      ("flags", encBoolGrid f), ("gameOver", Json.bool go), ("won", Json.bool w),
      ("startTime", Json.num st), ("moves", Json.num mv)]) = _
    simp only [decodeGame, lookupField, if_pos, if_neg, String.reduceEq,
      reduceIte, Option.bind_eq_bind, Option.some_bind]
    rw [show encIntGrid b = Json.arr (List.ofFn fun i : Fin 8 =>
        Json.arr (List.ofFn fun j : Fin 8 => Json.num (b i j))) from rfl,
      decGrid_enc 0 decNum Json.num (fun a => rfl) b]
    rw [show encBoolGrid m = Json.arr (List.ofFn fun i : Fin 8 =>
        Json.arr (List.ofFn fun j : Fin 8 => Json.bool (m i j))) from rfl,
      decGrid_enc false decBool Json.bool (fun a => rfl) m]
    rw [show encBoolGrid f = Json.arr (List.ofFn fun i : Fin 8 =>
        Json.arr (List.ofFn fun j : Fin 8 => Json.bool (f i j))) from rfl,
      decGrid_enc false decBool Json.bool (fun a => rfl) f]
    rfl
  | some t =>
    show decodeGame (Json.obj [("board", encIntGrid b), ("mask", encBoolGrid m),
      ("flags", encBoolGrid f), ("gameOver", Json.bool go), ("won", Json.bool w),
      ("startTime", Json.num st), ("moves", Json.num mv),
      ("endTime", Json.num t)]) = _
    simp only [decodeGame, lookupField, if_pos, if_neg, String.reduceEq,
      reduceIte, Option.bind_eq_bind, Option.some_bind]
    rw [show encIntGrid b = Json.arr (List.ofFn fun i : Fin 8 =>
        Json.arr (List.ofFn fun j : Fin 8 => Json.num (b i j))) from rfl,
      decGrid_enc 0 decNum Json.num (fun a => rfl) b]
    rw [show encBoolGrid m = Json.arr (List.ofFn fun i : Fin 8 =>
        Json.arr (List.ofFn fun j : Fin 8 => Json.bool (m i j))) from rfl,
      decGrid_enc false decBool Json.bool (fun a => rfl) m]
    rw [show encBoolGrid f = Json.arr (List.ofFn fun i : Fin 8 =>
        Json.arr (List.ofFn fun j : Fin 8 => Json.bool (f i j))) from rfl,
      decGrid_enc false decBool Json.bool (fun a => rfl) f]
    rfl

/-! ## Reveal engine: ground lemmas -/

/-- The number of cells hidden in `g` but revealed in `g'`. -/
def revealedCount (g g' : Game) : Nat :=
  allCells.countP fun p => !g.mask p.1 p.2 && g'.mask p.1 p.2

/-- All fields except the mask agree. -/
def sameExceptMask (g g' : Game) : Prop :=
  g'.board = g.board ∧ g'.flags = g.flags ∧ g'.gameOver = g.gameOver ∧
  g'.won = g.won ∧ g'.startTime = g.startTime ∧ g'.moves = g.moves ∧
  g'.endTime = g.endTime

/-- Every cell revealed in `g` is still revealed in `g'`. -/
def maskLe (g g' : Game) : Prop :=
  ∀ i j : Fin 8, g.mask i j = true → g'.mask i j = true

theorem sameExceptMask_refl (g : Game) : sameExceptMask g g :=
  ⟨rfl, rfl, rfl, rfl, rfl, rfl, rfl⟩

theorem sameExceptMask_trans {g1 g2 g3 : Game} (h1 : sameExceptMask g1 g2)
    (h2 : sameExceptMask g2 g3) : sameExceptMask g1 g3 := by
  obtain ⟨a1, a2, a3, a4, a5, a6, a7⟩ := h1
  obtain ⟨b1, b2, b3, b4, b5, b6, b7⟩ := h2
  exact ⟨b1.trans a1, b2.trans a2, b3.trans a3, b4.trans a4, b5.trans a5,
    b6.trans a6, b7.trans a7⟩

theorem maskLe_refl (g : Game) : maskLe g g := fun _ _ h => h

theorem maskLe_trans {g1 g2 g3 : Game} (h1 : maskLe g1 g2) (h2 : maskLe g2 g3) :
    maskLe g1 g3 := fun i j h => h2 i j (h1 i j h)

theorem toIdx_val {r : Int} {i : Fin 8} (h : toIdx r = some i) :
    ((i : Nat) : Int) = r := by
  unfold toIdx at h
  split at h
  · rename_i hr
    obtain ⟨rfl⟩ := Option.some_inj.mp h
    simp only []
    omega
  · exact absurd h (by simp)

theorem isValid_iff (row col : Int) :
    isValidPosition row col = true ↔
      (∃ i, toIdx row = some i) ∧ ∃ j, toIdx col = some j := by
  unfold isValidPosition toIdx ROWS COLS
  constructor
  · intro h
    rw [decide_eq_true_eq] at h
    obtain ⟨h1, h2, h3, h4⟩ := h
    exact ⟨⟨⟨row.toNat, by omega⟩, by rw [dif_pos ⟨h1, h2⟩]⟩,
      ⟨⟨col.toNat, by omega⟩, by rw [dif_pos ⟨h3, h4⟩]⟩⟩
  · rintro ⟨⟨i, hi⟩, ⟨j, hj⟩⟩
    rw [decide_eq_true_eq]
    split at hi
    · split at hj
      · rename_i h1 h2; omega
      · exact absurd hj (by simp)
    · exact absurd hi (by simp)

theorem maskAtB_some {g : Game} {row col : Int} {i j : Fin 8}
    (hr : toIdx row = some i) (hc : toIdx col = some j) :
    maskAtB g row col = g.mask i j := by
  unfold maskAtB; rw [hr, hc]

theorem flagsAtB_some {g : Game} {row col : Int} {i j : Fin 8}
    (hr : toIdx row = some i) (hc : toIdx col = some j) :
    flagsAtB g row col = g.flags i j := by
  unfold flagsAtB; rw [hr, hc]

theorem boardAt_some {g : Game} {row col : Int} {i j : Fin 8}
    (hr : toIdx row = some i) (hc : toIdx col = some j) :
    boardAt g row col = some (g.board i j) := by
  unfold boardAt; rw [hr, hc]

theorem setMask_some {g : Game} {row col : Int} {i j : Fin 8}
    (hr : toIdx row = some i) (hc : toIdx col = some j) :
    setMask g row col = { g with mask := setG g.mask i j true } := by
  unfold setMask; rw [hr, hc]

theorem maskAtB_congr {g g' : Game} (h : g'.mask = g.mask) (row col : Int) :
    maskAtB g' row col = maskAtB g row col := by
  unfold maskAtB; cases toIdx row <;> cases toIdx col <;> simp [h]

theorem flagsAtB_congr {g g' : Game} (h : g'.flags = g.flags) (row col : Int) :
    flagsAtB g' row col = flagsAtB g row col := by
  unfold flagsAtB; cases toIdx row <;> cases toIdx col <;> simp [h]

theorem boardAt_congr {g g' : Game} (h : g'.board = g.board) (row col : Int) :
    boardAt g' row col = boardAt g row col := by
  unfold boardAt; cases toIdx row <;> cases toIdx col <;> simp [h]

theorem countP_split (l : List (Fin 8 × Fin 8)) (f h1 h2 : Fin 8 × Fin 8 → Bool)
    (H : ∀ a ∈ l, (f a = true ↔ h1 a = true ∨ h2 a = true) ∧
      ¬(h1 a = true ∧ h2 a = true)) :
    l.countP f = l.countP h1 + l.countP h2 := by
  induction l with
  | nil => rfl
  | cons a l ih =>
    have Ha := H a (List.mem_cons_self a l)
    have ihl := ih fun b hb => H b (List.mem_cons_of_mem a hb)
    rw [List.countP_cons, List.countP_cons, List.countP_cons, ihl]
    rcases hf : f a <;> rcases hh1 : h1 a <;> rcases hh2 : h2 a <;>
      simp [hf, hh1, hh2] at Ha ⊢ <;> omega

theorem countP_singleton (l : List (Fin 8 × Fin 8)) (hl : l.Nodup)
    (a : Fin 8 × Fin 8) (ha : a ∈ l) (f : Fin 8 × Fin 8 → Bool)
    (hf : ∀ b ∈ l, f b = true ↔ b = a) : l.countP f = 1 := by
  induction l with
  | nil => exact absurd ha (List.not_mem_nil a)
  | cons b l ih =>
    rw [List.nodup_cons] at hl
    rcases List.mem_cons.mp ha with rfl | ha'
    · rw [List.countP_cons_of_pos _ _ ((hf a (List.mem_cons_self a l)).mpr rfl)]
      have : l.countP f = 0 := by
        rw [List.countP_eq_zero]
        intro c hc hfc
        exact hl.1 (((hf c (List.mem_cons_of_mem a hc)).mp hfc) ▸ hc)
      rw [this]
    · have hb : f b = false := by
        rcases hfb : f b with _ | _
        · rfl
        · exact absurd (((hf b (List.mem_cons_self b l)).mp hfb) ▸ ha') hl.1
      rw [List.countP_cons_of_neg _ _ (by simp [hb])]
      exact ih hl.2 ha' fun c hc => hf c (List.mem_cons_of_mem b hc)

theorem revealedCount_self (g : Game) : revealedCount g g = 0 := by
  unfold revealedCount
  rw [List.countP_eq_zero]
  intro p _
  cases g.mask p.1 p.2 <;> simp

theorem revealedCount_trans {g1 g2 g3 : Game} (h1 : maskLe g1 g2)
    (h2 : maskLe g2 g3) :
    revealedCount g1 g3 = revealedCount g1 g2 + revealedCount g2 g3 := by
  unfold revealedCount
  refine countP_split _ _ _ _ fun p _ => ?_
  constructor
  · constructor
    · intro h
      simp only [Bool.and_eq_true, Bool.not_eq_true'] at h ⊢
      rcases hm2 : g2.mask p.1 p.2
      · exact Or.inr ⟨rfl, h.2⟩
      · exact Or.inl ⟨h.1, rfl⟩
    · intro h
      simp only [Bool.and_eq_true, Bool.not_eq_true'] at h ⊢
      rcases h with ⟨ha, hb⟩ | ⟨ha, hb⟩
      · exact ⟨ha, h2 p.1 p.2 hb⟩
      · refine ⟨?_, hb⟩
        rcases hm1 : g1.mask p.1 p.2
        · rfl
        · exact absurd (h1 p.1 p.2 hm1) (by simp [ha])
  · intro h
    simp only [Bool.and_eq_true, Bool.not_eq_true'] at h
    obtain ⟨⟨_, hb⟩, ⟨hc, _⟩⟩ := h
    simp [hb] at hc

theorem revealedCount_setG {g : Game} {i j : Fin 8}
    (hm : g.mask i j = false) :
    revealedCount g { g with mask := setG g.mask i j true } = 1 := by
  unfold revealedCount
  refine countP_singleton _ allCells_nodup (i, j) (mem_allCells _) _ ?_
  intro b _
  simp only [Bool.and_eq_true, Bool.not_eq_true']
  constructor
  · rintro ⟨hb1, hb2⟩
    by_contra hne
    rw [setG_other _ _ _ _ _ _ (fun hand => hne (Prod.ext hand.1 hand.2))] at hb2
    simp [hb1] at hb2
  · rintro rfl
    exact ⟨hm, setG_same _ _ _ _⟩

/-! ## Reveal engine: the master specification -/

/-- The `for (const [dx, dy] of DIRECTIONS)` loop of `revealEmpty`, folding
the threaded `(game, budget)` pair over the remaining directions. -/
def revealFold (fuel : Nat) (row col : Int) (ds : List (Int × Int))
    (g : Game) (m : Int) : Game × Int :=
  ds.foldl (fun p d => revealEmptyF fuel p.1 (row + d.1) (col + d.2) p.2) (g, m)

theorem revealFold_nil (fuel : Nat) (row col : Int) (g : Game) (m : Int) :
    revealFold fuel row col [] g m = (g, m) := rfl

theorem revealFold_cons (fuel : Nat) (row col : Int) (d : Int × Int)
    (ds : List (Int × Int)) (g : Game) (m : Int) :
    revealFold fuel row col (d :: ds) g m =
      revealFold fuel row col ds
        (revealEmptyF fuel g (row + d.1) (col + d.2) m).1
        (revealEmptyF fuel g (row + d.1) (col + d.2) m).2 := by
  unfold revealFold
  rw [List.foldl_cons]

theorem revealF_zero (g : Game) (row col m : Int) :
    revealEmptyF 0 g row col m = (g, m) := rfl

theorem revealF_stop {fuel : Nat} {g : Game} {row col m : Int}
    (h : (!isValidPosition row col || maskAtB g row col || flagsAtB g row col
      || decide (m ≤ 0)) = true) :
    revealEmptyF (fuel + 1) g row col m = (g, m) := by
  rw [revealEmptyF]
  simp only [h, if_true]

theorem revealF_go {fuel : Nat} {g : Game} {row col m : Int}
    (h : (!isValidPosition row col || maskAtB g row col || flagsAtB g row col
      || decide (m ≤ 0)) = false) :
    revealEmptyF (fuel + 1) g row col m =
      if boardAt (setMask g row col) row col = some 0 then
        revealFold fuel row col DIRECTIONS (setMask g row col) (m - 1)
      else (setMask g row col, m - 1) := by
  rw [revealEmptyF]
  simp only [h, Bool.false_eq_true, if_false]
  rfl

theorem guard_false_parts {g : Game} {row col m : Int}
    (h : (!isValidPosition row col || maskAtB g row col || flagsAtB g row col
      || decide (m ≤ 0)) = false) :
    isValidPosition row col = true ∧ maskAtB g row col = false ∧
      flagsAtB g row col = false ∧ 0 < m := by
  have hv : isValidPosition row col = true := by
    by_contra hv
    rw [Bool.not_eq_true] at hv
    rw [hv] at h
    simp at h
  have hm : maskAtB g row col = false := by
    by_contra hm
    rw [Bool.not_eq_false] at hm
    rw [hm] at h
    simp at h
  have hf : flagsAtB g row col = false := by
    by_contra hf
    rw [Bool.not_eq_false] at hf
    rw [hf] at h
    simp at h
  refine ⟨hv, hm, hf, ?_⟩
  rw [hv, hm, hf] at h
  simp at h
  omega

/-- The budget/frame contract of one reveal call: only the mask changes,
it only grows, the returned budget is the supplied one minus the number of
newly revealed cells, and that number is at most `max m 0`. -/
def revealSpec (g : Game) (m : Int) (out : Game × Int) : Prop :=
  sameExceptMask g out.1 ∧ maskLe g out.1 ∧
  out.2 = m - (revealedCount g out.1 : Int) ∧
  revealedCount g out.1 ≤ m.toNat

/-- Every newly revealed cell is a non-mine cell. -/
def noNewMineRevealed (g : Game) (out : Game) : Prop :=
  ∀ i j : Fin 8, out.mask i j = true → g.mask i j = true ∨ g.board i j ≠ -1

/-- No zero-valued cell has a mine among its in-bounds neighbors (the
consequence of the generation invariant that the cascade relies on). -/
def zeroSafe (g : Game) : Prop :=
  ∀ i j : Fin 8, g.board i j = 0 → ∀ d ∈ DIRECTIONS,
    boardAt g (((i : Nat) : Int) + d.1) (((j : Nat) : Int) + d.2) ≠ some (-1)

theorem revealSpec_refl (g : Game) (m : Int) : revealSpec g m (g, m) := by
  refine ⟨sameExceptMask_refl g, maskLe_refl g, ?_, ?_⟩ <;>
    simp [revealedCount_self]

theorem revealSpec_trans {g : Game} {m : Int} {q r : Game × Int}
    (h1 : revealSpec g m q) (h2 : revealSpec q.1 q.2 r) : revealSpec g m r := by
  obtain ⟨s1, l1, b1, c1⟩ := h1
  obtain ⟨s2, l2, b2, c2⟩ := h2
  refine ⟨sameExceptMask_trans s1 s2, maskLe_trans l1 l2, ?_, ?_⟩
  · rw [revealedCount_trans l1 l2]
    omega
  · rw [revealedCount_trans l1 l2]
    omega

theorem noNewMine_refl (g : Game) : noNewMineRevealed g g := fun _ _ h => Or.inl h

theorem noNewMine_trans {g q r : Game} (hb : q.board = g.board)
    (h1 : noNewMineRevealed g q) (h2 : noNewMineRevealed q r) :
    noNewMineRevealed g r := by
  intro i j hm
  rcases h2 i j hm with hq | hne
  · exact h1 i j hq
  · exact Or.inr (hb ▸ hne)

theorem zeroSafe_congr {g q : Game} (hb : q.board = g.board) (hz : zeroSafe g) :
    zeroSafe q := by
  intro i j h0 d hd
  rw [boardAt_congr hb]
  exact hz i j (hb ▸ h0) d hd

theorem maskLe_setG (g : Game) (i j : Fin 8) :
    maskLe g { g with mask := setG g.mask i j true } := by
  intro i' j' h
  by_cases hij : i' = i ∧ j' = j
  · show setG g.mask i j true i' j' = true
    obtain ⟨rfl, rfl⟩ := hij
    exact setG_same _ _ _ _
  · show setG g.mask i j true i' j' = true
    rw [setG_other _ _ _ _ _ _ hij]
    exact h

/-- Master specification of the flood fill, by induction on the fuel:
frame, mask monotonicity, exact budget accounting, the budget as a ceiling
on the number of reveals, and (for a non-mine start on a `zeroSafe` board)
that no mine cell is ever newly revealed. -/
theorem revealF_spec (fuel : Nat) :
    ∀ (g : Game) (row col m : Int),
      revealSpec g m (revealEmptyF fuel g row col m) ∧
      (boardAt g row col ≠ some (-1) → zeroSafe g →
        noNewMineRevealed g (revealEmptyF fuel g row col m).1) := by
  induction fuel with
  | zero =>
    intro g row col m
    rw [revealF_zero]
    exact ⟨revealSpec_refl g m, fun _ _ => noNewMine_refl g⟩
  | succ fuel ih =>
    have hfold : ∀ (ds : List (Int × Int)) (row col : Int) (g : Game) (m : Int),
        revealSpec g m (revealFold fuel row col ds g m) ∧
        ((∀ d ∈ ds, boardAt g (row + d.1) (col + d.2) ≠ some (-1)) →
          zeroSafe g →
          noNewMineRevealed g (revealFold fuel row col ds g m).1) := by
      intro ds
      induction ds with
      | nil =>
        intro row col g m
        rw [revealFold_nil]
        exact ⟨revealSpec_refl g m, fun _ _ => noNewMine_refl g⟩
      | cons d ds ihds =>
        intro row col g m
        rw [revealFold_cons]
        obtain ⟨hq, hqmine⟩ := ih g (row + d.1) (col + d.2) m
        obtain ⟨hr, hrmine⟩ := ihds row col
          (revealEmptyF fuel g (row + d.1) (col + d.2) m).1
          (revealEmptyF fuel g (row + d.1) (col + d.2) m).2
        have hboard : (revealEmptyF fuel g (row + d.1) (col + d.2) m).1.board
            = g.board := hq.1.1
        refine ⟨revealSpec_trans hq hr, ?_⟩
        intro htargets hz
        refine noNewMine_trans hboard
          (hqmine (htargets d (List.mem_cons_self d ds)) hz) ?_
        refine hrmine ?_ (zeroSafe_congr hboard hz)
        intro d' hd'
        rw [boardAt_congr hboard]
        exact htargets d' (List.mem_cons_of_mem d hd')
    intro g row col m
    rcases hguard : (!isValidPosition row col || maskAtB g row col
        || flagsAtB g row col || decide (m ≤ 0)) with _ | _
    · -- guard is false: the cell is actually revealed
      obtain ⟨hval, hmaskf, hflagf, hmpos⟩ := guard_false_parts hguard
      obtain ⟨⟨i, hi⟩, ⟨j, hj⟩⟩ := (isValid_iff row col).mp hval
      have hmij : g.mask i j = false := by
        rw [← maskAtB_some hi hj]; exact hmaskf
      have hset : setMask g row col = { g with mask := setG g.mask i j true } :=
        setMask_some hi hj
      have hrc1 : revealedCount g (setMask g row col) = 1 := by
        rw [hset]; exact revealedCount_setG hmij
      have hsame1 : sameExceptMask g (setMask g row col) := by
        rw [hset]; exact ⟨rfl, rfl, rfl, rfl, rfl, rfl, rfl⟩
      have hle1 : maskLe g (setMask g row col) := by
        rw [hset]; exact maskLe_setG g i j
      have hspec1 : revealSpec g m (setMask g row col, m - 1) := by
        refine ⟨hsame1, hle1, ?_, ?_⟩ <;> rw [hrc1] <;> omega
      have hmine1 : boardAt g row col ≠ some (-1) →
          noNewMineRevealed g (setMask g row col) := by
        intro hstart i' j' hm'
        rw [hset] at hm'
        by_cases hij : i' = i ∧ j' = j
        · obtain ⟨rfl, rfl⟩ := hij
          refine Or.inr fun hmine => hstart ?_
          rw [boardAt_some hi hj, hmine]
        · refine Or.inl ?_
          have := hm'
          rw [show ({ g with mask := setG g.mask i j true } : Game).mask
              = setG g.mask i j true from rfl] at this
          rw [setG_other _ _ _ _ _ _ hij] at this
          exact this
      rw [revealF_go hguard]
      rcases hzero : decide (boardAt (setMask g row col) row col = some 0) with _ | _
      · -- the revealed cell is not a zero: no recursion
        rw [decide_eq_false_iff_not] at hzero
        rw [if_neg hzero]
        exact ⟨hspec1, fun hstart _ => hmine1 hstart⟩
      · -- zero cell: recurse over the eight neighbors
        rw [decide_eq_true_eq] at hzero
        rw [if_pos hzero]
        have hbset : (setMask g row col).board = g.board := hsame1.1
        obtain ⟨hfspec, hfmine⟩ :=
          hfold DIRECTIONS row col (setMask g row col) (m - 1)
        refine ⟨revealSpec_trans hspec1 hfspec, ?_⟩
        intro hstart hz
        have hb0 : g.board i j = 0 := by
          rw [boardAt_congr hbset, boardAt_some hi hj] at hzero
          exact Option.some_inj.mp hzero
        refine noNewMine_trans hbset (hmine1 hstart) ?_
        refine hfmine ?_ (zeroSafe_congr hbset hz)
        intro d hd
        rw [boardAt_congr hbset]
        have := hz i j hb0 d hd
        rw [toIdx_val hi, toIdx_val hj] at this
        exact this
    · -- guard is true: no-op
      rw [revealF_stop hguard]
      exact ⟨revealSpec_refl g m, fun _ _ => noNewMine_refl g⟩

/-! ### Adequacy of the fuel

The fuel is a termination artifact only: `revealEmptyF` is unchanged by any
fuel at least one more than the number of hidden cells (each recursion level
reveals a cell first), and there are at most 64 hidden cells, so `FUEL = 65`
computes the same function as the unbounded TypeScript recursion. -/

/-- The number of currently hidden cells. -/
def hiddenCnt (g : Game) : Nat :=
  allCells.countP fun p => !g.mask p.1 p.2

theorem hiddenCnt_eq {g g' : Game} (h : maskLe g g') :
    hiddenCnt g = hiddenCnt g' + revealedCount g g' := by
  unfold hiddenCnt revealedCount
  refine countP_split _ _ _ _ fun p _ => ?_
  constructor
  · constructor
    · intro hp
      simp only [Bool.not_eq_true', Bool.and_eq_true] at hp ⊢
      rcases hm' : g'.mask p.1 p.2
      · exact Or.inl rfl
      · exact Or.inr ⟨hp, rfl⟩
    · intro hp
      simp only [Bool.not_eq_true', Bool.and_eq_true] at hp ⊢
      rcases hp with hp | ⟨hp, _⟩
      · rcases hm : g.mask p.1 p.2
        · rfl
        · exact absurd (h p.1 p.2 hm) (by simp [hp])
      · exact hp
  · intro hp
    simp only [Bool.not_eq_true', Bool.and_eq_true] at hp
    obtain ⟨h1, ⟨_, h2⟩⟩ := hp
    simp [h1] at h2

theorem hiddenCnt_le_of_maskLe {g g' : Game} (h : maskLe g g') :
    hiddenCnt g' ≤ hiddenCnt g := by
  rw [hiddenCnt_eq h]
  omega

theorem countP_le_len (l : List (Fin 8 × Fin 8)) (f : Fin 8 × Fin 8 → Bool) :
    l.countP f ≤ l.length := by
  induction l with
  | nil => exact Nat.le_refl 0
  | cons a l ih =>
    rw [List.countP_cons, List.length_cons]
    split <;> omega

theorem hiddenCnt_le (g : Game) : hiddenCnt g ≤ 64 := by
  have h := countP_le_len allCells fun p => !g.mask p.1 p.2
  rw [show allCells.length = 64 from rfl] at h
  exact h

theorem hiddenCnt_setMask {g : Game} {row col : Int} {i j : Fin 8}
    (hi : toIdx row = some i) (hj : toIdx col = some j)
    (hm : g.mask i j = false) :
    hiddenCnt (setMask g row col) + 1 = hiddenCnt g := by
  have hle : maskLe g (setMask g row col) := by
    rw [setMask_some hi hj]
    exact maskLe_setG g i j
  have hrc : revealedCount g (setMask g row col) = 1 := by
    rw [setMask_some hi hj]
    exact revealedCount_setG hm
  rw [hiddenCnt_eq hle, hrc]

/-- Above the hidden-cell count, the fuel is irrelevant. -/
theorem revealF_fuel_stable :
    ∀ (fuel : Nat) (g : Game) (row col m : Int), hiddenCnt g < fuel →
      revealEmptyF (fuel + 1) g row col m = revealEmptyF fuel g row col m := by
  intro fuel
  induction fuel with
  | zero => intro g row col m h; exact absurd h (by omega)
  | succ f ih =>
    intro g row col m hhid
    rcases hguard : (!isValidPosition row col || maskAtB g row col
        || flagsAtB g row col || decide (m ≤ 0)) with _ | _
    · obtain ⟨hval, hmaskf, hflagf, _⟩ := guard_false_parts hguard
      obtain ⟨⟨i, hi⟩, ⟨j, hj⟩⟩ := (isValid_iff row col).mp hval
      have hmij : g.mask i j = false := by
        rw [← maskAtB_some hi hj]
        exact hmaskf
      have hhid1 : hiddenCnt (setMask g row col) < f := by
        have := hiddenCnt_setMask hi hj hmij
        omega
      have hfold : ∀ (ds : List (Int × Int)) (g' : Game) (m' : Int),
          hiddenCnt g' < f →
          revealFold (f + 1) row col ds g' m' =
            revealFold f row col ds g' m' := by
        intro ds
        induction ds with
        | nil => intro g' m' _; rw [revealFold_nil, revealFold_nil]
        | cons d ds ihds =>
          intro g' m' hh
          rw [revealFold_cons, revealFold_cons, ih g' (row + d.1) (col + d.2) m' hh]
          refine ihds _ _ ?_
          exact lt_of_le_of_lt
            (hiddenCnt_le_of_maskLe
              (revealF_spec f g' (row + d.1) (col + d.2) m').1.2.1) hh
      rw [revealF_go hguard, revealF_go hguard]
      split
      · exact hfold DIRECTIONS (setMask g row col) (m - 1) hhid1
      · rfl
    · rw [revealF_stop hguard, revealF_stop hguard]

/-- `FUEL = 65` is enough fuel: any larger fuel computes the same result, so
`revealEmpty` agrees with the unbounded recursion of the source. -/
theorem revealEmpty_fuel_adequate (g : Game) (row col m : Int) (fuel : Nat)
    (h : FUEL ≤ fuel) : revealEmptyF fuel g row col m = revealEmpty g row col m := by
  obtain ⟨k, rfl⟩ := Nat.exists_eq_add_of_le h
  induction k with
  | zero => rfl
  | succ k ihk =>
    rw [show FUEL + (k + 1) = (FUEL + k) + 1 from rfl]
    rw [revealF_fuel_stable (FUEL + k) g row col m
      (lt_of_le_of_lt (hiddenCnt_le g) (by unfold FUEL; omega))]
    exact ihk (by omega)

/-! ## Claims C7 and C8: budget and mine-avoidance of the flood fill -/

/-- **C7.** One call to `revealEmpty` with budget `b` flips mask entries only
from hidden to revealed, flips at most `max b 0` of them, and returns `b`
minus the number of cells it revealed. -/
theorem C7_reveal_budget (g : Game) (row col b : Int) :
    maskLe g (revealEmpty g row col b).1 ∧
    ((revealedCount g (revealEmpty g row col b).1 : Int) ≤ max b 0) ∧
    (revealEmpty g row col b).2 =
      b - (revealedCount g (revealEmpty g row col b).1 : Int) := by
  obtain ⟨⟨_, hle, hbud, hcnt⟩, _⟩ := revealF_spec FUEL g row col b
  refine ⟨hle, ?_, hbud⟩
  rw [← Int.toNat_eq_max]
  exact_mod_cast hcnt

/-- The generation invariant on a board: every non-mine cell holds its
in-bounds neighbor-mine count. -/
def boardInvariant (b : Fin 8 → Fin 8 → Int) : Prop :=
  ∀ i j : Fin 8, b i j ≠ -1 →
    b i j = ((countAdjMines b (i : Nat) (j : Nat) : Nat) : Int)

instance (b : Fin 8 → Fin 8 → Int) : Decidable (boardInvariant b) := by
  unfold boardInvariant; infer_instance

theorem mineScan_eq_boardAt (g : Game) (r c : Int) :
    (match toIdx r, toIdx c with
      | some i, some j => decide (g.board i j = -1)
      | _, _ => false) = true ↔ boardAt g r c = some (-1) := by
  unfold boardAt
  cases toIdx r <;> cases toIdx c <;> simp

theorem zeroSafe_of_invariant {g : Game} (hinv : boardInvariant g.board) :
    zeroSafe g := by
  intro i j h0 d hd
  have hne : g.board i j ≠ -1 := by rw [h0]; decide
  have hcnt : countAdjMines g.board ((i : Nat) : Int) ((j : Nat) : Int) = 0 := by
    have := hinv i j hne
    rw [h0] at this
    omega
  unfold countAdjMines at hcnt
  rw [List.countP_eq_zero] at hcnt
  have hthis := hcnt d hd
  intro hb
  apply hthis
  exact (mineScan_eq_boardAt g _ _).mpr hb

/-- **C8.** On a board satisfying the generation invariant, a reveal starting
at a cell whose value is not `-1` never reveals a mine cell: every mine cell
hidden before the call is still hidden after it. -/
theorem C8_reveal_no_mine (g : Game) (row col m : Int)
    (hinv : boardInvariant g.board)
    (hstart : boardAt g row col ≠ some (-1)) :
    ∀ i j : Fin 8, g.board i j = -1 → g.mask i j = false →
      (revealEmpty g row col m).1.mask i j = false := by
  intro i j hmine hhid
  rcases hout : (revealEmpty g row col m).1.mask i j with _ | _
  · rfl
  · obtain ⟨_, hnm⟩ := revealF_spec FUEL g row col m
    rcases hnm hstart (zeroSafe_of_invariant hinv) i j hout with hm | hne
    · rw [hhid] at hm
      exact absurd hm (by simp)
    · exact absurd hmine hne

/-- Concrete board for witnesses: mines on the whole first row and the first
two cells of the second row, all other cells holding their true counts. -/
def witBoardRows : List (List Int) :=
  [[-1, -1, -1, -1, -1, -1, -1, -1],
   [-1, -1,  4,  3,  3,  3,  3,  2],
   [ 2,  2,  1,  0,  0,  0,  0,  0],
   [ 0,  0,  0,  0,  0,  0,  0,  0],
   [ 0,  0,  0,  0,  0,  0,  0,  0],
   [ 0,  0,  0,  0,  0,  0,  0,  0],
   [ 0,  0,  0,  0,  0,  0,  0,  0],
   [ 0,  0,  0,  0,  0,  0,  0,  0]]

/-- The witness board as a grid function. -/
def witBoard : Fin 8 → Fin 8 → Int :=
  fun i j => (((witBoardRows.get? (i : Nat)).getD []).get? (j : Nat)).getD 0

/-- A fresh game over the witness board. -/
def witGame : Game where
  board := witBoard
  mask := fun _ _ => false
  flags := fun _ _ => false
  gameOver := false
  won := false
  startTime := 0
  moves := 0
  endTime := none

/-- Witness for `C8_reveal_no_mine`: revealing from the empty cell `(7, 7)`
of the witness board leaves the mine at `(0, 0)` hidden. -/
theorem C8_reveal_no_mine_wit :
    boardInvariant witGame.board ∧ boardAt witGame 7 7 ≠ some (-1) ∧
    witGame.board 0 0 = -1 ∧ witGame.mask 0 0 = false ∧
    (revealEmpty witGame 7 7 MAX_REVEALS).1.mask 0 0 = false :=
  ⟨by decide, by decide, by decide, by decide,
    C8_reveal_no_mine witGame 7 7 MAX_REVEALS (by decide) (by decide)
      0 0 (by decide) (by decide)⟩

/-! ## Handler support lemmas -/

theorem toIdx_coe (i : Fin 8) : toIdx ((i : Nat) : Int) = some i := by
  unfold toIdx
  rw [dif_pos (by omega)]
  refine congrArg some (Fin.ext ?_)
  show (((i : Nat) : Int)).toNat = (i : Nat)
  omega

theorem revealEmpty_frame (g : Game) (row col m : Int) :
    sameExceptMask g (revealEmpty g row col m).1 :=
  (revealF_spec FUEL g row col m).1.1

theorem revealEmpty_maskLe (g : Game) (row col m : Int) :
    maskLe g (revealEmpty g row col m).1 :=
  (revealF_spec FUEL g row col m).1.2.1

theorem revealFold_maskLe (fuel : Nat) (row col : Int) :
    ∀ (ds : List (Int × Int)) (g : Game) (m : Int) (i j : Fin 8),
      g.mask i j = true → (revealFold fuel row col ds g m).1.mask i j = true := by
  intro ds
  induction ds with
  | nil => intro g m i j h; rw [revealFold_nil]; exact h
  | cons d ds ih =>
    intro g m i j h
    rw [revealFold_cons]
    exact ih _ _ i j ((revealF_spec fuel g (row + d.1) (col + d.2) m).1.2.1 i j h)

/-- A hidden, unflagged, in-range cell is revealed by the call targeting it
(whatever the cascade does afterwards), provided the budget is positive. -/
theorem revealF_target {g : Game} {row col m : Int} {i j : Fin 8}
    (hi : toIdx row = some i) (hj : toIdx col = some j)
    (hf : flagsAtB g row col = false) (hm : 0 < m) :
    (revealEmpty g row col m).1.mask i j = true := by
  unfold revealEmpty
  rw [show FUEL = 64 + 1 from rfl]
  rcases hmask : maskAtB g row col with _ | _
  · have hvalid : isValidPosition row col = true :=
      (isValid_iff row col).mpr ⟨⟨i, hi⟩, ⟨j, hj⟩⟩
    have hnle : ¬(m ≤ 0) := by omega
    have hguard : (!isValidPosition row col || maskAtB g row col
        || flagsAtB g row col || decide (m ≤ 0)) = false := by
      simp [hvalid, hmask, hf, hnle]
    rw [revealF_go hguard]
    have hset : (setMask g row col).mask i j = true := by
      rw [setMask_some hi hj]; exact setG_same _ _ _ _
    split
    · exact revealFold_maskLe 64 row col DIRECTIONS _ _ i j hset
    · exact hset
  · rw [revealF_stop (by simp [hmask])]
    rw [← maskAtB_some hi hj]
    exact hmask

theorem revealEach_cons (g : Game) (p : Int × Int) (ps : List (Int × Int)) :
    revealEach g (p :: ps) =
      revealEach (revealEmpty g p.1 p.2 MAX_REVEALS).1 ps := by
  unfold revealEach
  rw [List.foldl_cons]

theorem revealEach_frame : ∀ (ps : List (Int × Int)) (g : Game),
    sameExceptMask g (revealEach g ps) := by
  intro ps
  induction ps with
  | nil => intro g; exact sameExceptMask_refl g
  | cons p ps ih =>
    intro g
    rw [revealEach_cons]
    exact sameExceptMask_trans (revealEmpty_frame g p.1 p.2 MAX_REVEALS) (ih _)

theorem revealEach_maskLe : ∀ (ps : List (Int × Int)) (g : Game),
    maskLe g (revealEach g ps) := by
  intro ps
  induction ps with
  | nil => intro g; exact maskLe_refl g
  | cons p ps ih =>
    intro g
    rw [revealEach_cons]
    exact maskLe_trans (revealEmpty_maskLe g p.1 p.2 MAX_REVEALS) (ih _)

/-- Every cell of the worklist that is unflagged and in range ends up
revealed after the chord branch's reveal loop. -/
theorem revealEach_reveals : ∀ (ps : List (Int × Int)) (g : Game),
    (∀ p ∈ ps, flagsAtB g p.1 p.2 = false) →
    ∀ p ∈ ps, ∀ i j : Fin 8, toIdx p.1 = some i → toIdx p.2 = some j →
      (revealEach g ps).mask i j = true := by
  intro ps
  induction ps with
  | nil => intro g _ p hp; exact absurd hp (List.not_mem_nil p)
  | cons q ps ih =>
    intro g hflags p hp i j hi hj
    rw [revealEach_cons]
    rcases List.mem_cons.mp hp with rfl | hp'
    · refine revealEach_maskLe ps _ i j ?_
      exact revealF_target hi hj (hflags p (List.mem_cons_self p ps)) (by decide)
    · refine ih _ ?_ p hp' i j hi hj
      intro r hr
      rw [flagsAtB_congr (revealEmpty_frame g q.1 q.2 MAX_REVEALS).2.1]
      exact hflags r (List.mem_cons_of_mem q hr)

/-! ### Flag updates (`autoFlag`'s marking loop) -/

/-- All fields except the flags agree. -/
def sameExceptFlags (g g' : Game) : Prop :=
  g'.board = g.board ∧ g'.mask = g.mask ∧ g'.gameOver = g.gameOver ∧
  g'.won = g.won ∧ g'.startTime = g.startTime ∧ g'.moves = g.moves ∧
  g'.endTime = g.endTime

theorem sameExceptFlags_refl (g : Game) : sameExceptFlags g g :=
  ⟨rfl, rfl, rfl, rfl, rfl, rfl, rfl⟩

theorem sameExceptFlags_trans {g1 g2 g3 : Game} (h1 : sameExceptFlags g1 g2)
    (h2 : sameExceptFlags g2 g3) : sameExceptFlags g1 g3 := by
  obtain ⟨a1, a2, a3, a4, a5, a6, a7⟩ := h1
  obtain ⟨b1, b2, b3, b4, b5, b6, b7⟩ := h2
  exact ⟨b1.trans a1, b2.trans a2, b3.trans a3, b4.trans a4, b5.trans a5,
    b6.trans a6, b7.trans a7⟩

theorem setFlag_frame (g : Game) (r c : Int) :
    sameExceptFlags g (setFlag g r c) := by
  unfold setFlag
  cases toIdx r <;> cases toIdx c <;> exact ⟨rfl, rfl, rfl, rfl, rfl, rfl, rfl⟩

theorem setFlag_le (g : Game) (r c : Int) (i j : Fin 8)
    (h : g.flags i j = true) : (setFlag g r c).flags i j = true := by
  unfold setFlag
  cases toIdx r <;> cases toIdx c
  any_goals exact h
  rename_i i0 j0
  show setG g.flags i0 j0 true i j = true
  by_cases hij : i = i0 ∧ j = j0
  · obtain ⟨rfl, rfl⟩ := hij; exact setG_same _ _ _ _
  · rw [setG_other _ _ _ _ _ _ hij]; exact h

theorem setFlag_sets {g : Game} {r c : Int} {i j : Fin 8}
    (hi : toIdx r = some i) (hj : toIdx c = some j) :
    (setFlag g r c).flags i j = true := by
  unfold setFlag
  rw [hi, hj]
  exact setG_same _ _ _ _

theorem setFlag_other {g : Game} {r c : Int} {i j : Fin 8}
    (h : ¬(toIdx r = some i ∧ toIdx c = some j)) :
    (setFlag g r c).flags i j = g.flags i j := by
  unfold setFlag
  cases hr : toIdx r <;> cases hc : toIdx c
  any_goals rfl
  rename_i i0 j0
  show setG g.flags i0 j0 true i j = g.flags i j
  refine setG_other _ _ _ _ _ _ fun hij => h ?_
  obtain ⟨rfl, rfl⟩ := hij
  exact ⟨hr, hc⟩

theorem flagsFold_frame : ∀ (ps : List (Int × Int)) (g : Game),
    sameExceptFlags g (ps.foldl (fun g' p => setFlag g' p.1 p.2) g) := by
  intro ps
  induction ps with
  | nil => intro g; exact sameExceptFlags_refl g
  | cons q ps ih =>
    intro g
    rw [List.foldl_cons]
    exact sameExceptFlags_trans (setFlag_frame g q.1 q.2) (ih _)

theorem flagsFold_le : ∀ (ps : List (Int × Int)) (g : Game) (i j : Fin 8),
    g.flags i j = true →
    (ps.foldl (fun g' p => setFlag g' p.1 p.2) g).flags i j = true := by
  intro ps
  induction ps with
  | nil => intro g i j h; exact h
  | cons q ps ih =>
    intro g i j h
    rw [List.foldl_cons]
    exact ih _ i j (setFlag_le g q.1 q.2 i j h)

theorem flagsFold_sets : ∀ (ps : List (Int × Int)) (g : Game),
    ∀ p ∈ ps, ∀ i j : Fin 8, toIdx p.1 = some i → toIdx p.2 = some j →
      (ps.foldl (fun g' q => setFlag g' q.1 q.2) g).flags i j = true := by
  intro ps
  induction ps with
  | nil => intro g p hp; exact absurd hp (List.not_mem_nil p)
  | cons q ps ih =>
    intro g p hp i j hi hj
    rw [List.foldl_cons]
    rcases List.mem_cons.mp hp with rfl | hp'
    · exact flagsFold_le ps _ i j (setFlag_sets hi hj)
    · exact ih _ p hp' i j hi hj

theorem flagsFold_other : ∀ (ps : List (Int × Int)) (g : Game) (i j : Fin 8),
    (∀ p ∈ ps, ¬(toIdx p.1 = some i ∧ toIdx p.2 = some j)) →
    (ps.foldl (fun g' q => setFlag g' q.1 q.2) g).flags i j = g.flags i j := by
  intro ps
  induction ps with
  | nil => intro g i j _; rfl
  | cons q ps ih =>
    intro g i j h
    rw [List.foldl_cons]
    rw [ih _ i j fun p hp => h p (List.mem_cons_of_mem q hp)]
    exact setFlag_other (h q (List.mem_cons_self q ps))

/-! ### The win check -/

theorem winCond_congr {g g' : Game} (hf : g'.flags = g.flags)
    (hb : g'.board = g.board) : winCond g' ↔ winCond g := by
  unfold winCond totalFlags correctFlags
  rw [hf, hb]

theorem checkWin_gameOver {g : Game} (h : g.gameOver = true) (now : Int) :
    checkWin g now = g := by
  unfold checkWin
  rw [h]
  simp

theorem checkWin_no_win {g : Game} (hgo : g.gameOver = false)
    (hnw : ¬winCond g) (now : Int) : checkWin g now = g := by
  unfold checkWin
  rw [hgo]
  simp [hnw]

theorem checkWin_win {g : Game} (hgo : g.gameOver = false)
    (hw : winCond g) (now : Int) :
    checkWin g now = { g with gameOver := true, won := true, endTime := some now } := by
  unfold checkWin
  rw [hgo]
  simp [hw]

theorem checkWin_cases (g : Game) (now : Int) :
    checkWin g now = g ∨
      checkWin g now = { g with gameOver := true, won := true, endTime := some now } := by
  unfold checkWin
  split
  · exact Or.inl rfl
  · split
    · exact Or.inr rfl
    · exact Or.inl rfl

/-! ### Dispatch of a cell click -/

theorem handle_ok {g : Game} (hgo : g.gameOver = false) {row : Int}
    {i : Fin 8} (hi : toIdx row = some i) (col now : Int) :
    handleCellAction g row col now =
      Except.ok (checkWin (clickAction g row col now) now) := by
  unfold handleCellAction
  rw [hgo, hi]
  simp

theorem chord_cond_true {g : Game} {row col : Int} {i j : Fin 8}
    (hi : toIdx row = some i) (hj : toIdx col = some j)
    (hmask : g.mask i j = true) (hpos : 0 < g.board i j) :
    (maskAtB g row col && boardGtZero (boardAt g row col)) = true := by
  rw [maskAtB_some hi hj, boardAt_some hi hj, hmask]
  simp [boardGtZero, hpos]

theorem clickAction_chord {g : Game} {row col : Int} (now : Int)
    (hc : (maskAtB g row col && boardGtZero (boardAt g row col)) = true) :
    clickAction g row col now = chordAction g row col now := by
  unfold clickAction
  rw [hc]
  simp

theorem clickAction_direct {g : Game} {row col : Int} (now : Int)
    (hc : (maskAtB g row col && boardGtZero (boardAt g row col)) = false)
    (hf : flagsAtB g row col = false) :
    clickAction g row col now = directAction g row col now := by
  unfold clickAction
  rw [hc, hf]
  simp

theorem mem_unopened {g : Game} {row col : Int} {p : Int × Int}
    (hp : p ∈ unopenedCells g row col) :
    isValidPosition p.1 p.2 = true ∧ flagsAtB g p.1 p.2 = false ∧
      maskAtB g p.1 p.2 = false := by
  unfold unopenedCells at hp
  rw [List.mem_filterMap] at hp
  obtain ⟨d, _, hpd⟩ := hp
  dsimp only at hpd
  split at hpd
  · rename_i hcond
    obtain rfl := Option.some_inj.mp hpd
    simp only [Bool.and_eq_true, Bool.not_eq_true'] at hcond
    exact ⟨hcond.1.1, hcond.1.2, hcond.2⟩
  · exact absurd hpd (by simp)

/-! ### Branch lemmas for the chord / direct-click actions -/

theorem revealAllMines_mask_mine {g : Game} (i j : Fin 8)
    (h : g.board i j = -1) : (revealAllMines g).mask i j = true := by
  show (if g.board i j = -1 then true else g.mask i j) = true
  rw [if_pos h]

theorem revealAllMines_maskLe (g : Game) : maskLe g (revealAllMines g) := by
  intro i j h
  show (if g.board i j = -1 then true else g.mask i j) = true
  split
  · rfl
  · exact h

theorem chordAction_mine {g : Game} {row col : Int} (now : Int)
    (hfc : boardAt g row col = some ((flagCount g row col : Nat) : Int))
    (hmine : ((unopenedCells g row col).any
      fun p => decide (boardAt g p.1 p.2 = some (-1))) = true) :
    chordAction g row col now =
      revealAllMines { g with gameOver := true, endTime := some now } := by
  unfold chordAction
  dsimp only
  rw [if_pos hfc, if_pos hmine]

theorem chordAction_safe {g : Game} {row col : Int} (now : Int)
    (hfc : boardAt g row col = some ((flagCount g row col : Nat) : Int))
    (hmine : ((unopenedCells g row col).any
      fun p => decide (boardAt g p.1 p.2 = some (-1))) = false) :
    chordAction g row col now =
      (if 0 < (unopenedCells g row col).length then
        { revealEach g (unopenedCells g row col) with
            moves := (revealEach g (unopenedCells g row col)).moves + 1 }
      else revealEach g (unopenedCells g row col)) := by
  unfold chordAction
  dsimp only
  rw [if_pos hfc, if_neg (by simp [hmine])]

theorem chordAction_heuristic {g : Game} {row col : Int} (now : Int)
    (hfc : ¬(boardAt g row col = some ((flagCount g row col : Nat) : Int))) :
    chordAction g row col now =
      (match autoFlag g row col with
        | (g', true) => { g' with moves := g'.moves + 1 }
        | (g', false) => g') := by
  unfold chordAction
  dsimp only
  rw [if_neg hfc]

theorem directAction_mine {g : Game} {row col : Int} (now : Int)
    (hb : boardAt g row col = some (-1)) :
    directAction g row col now =
      revealAllMines
        { g with
          moves := g.moves + 1,
          gameOver := true,
          endTime := some now } := by
  unfold directAction
  dsimp only
  rw [if_pos (by rw [boardAt_congr rfl]; exact hb)]

theorem directAction_safe {g : Game} {row col : Int} (now : Int)
    (hb : boardAt g row col ≠ some (-1)) :
    directAction g row col now =
      (revealEmpty { g with moves := g.moves + 1 } row col MAX_REVEALS).1 := by
  unfold directAction
  dsimp only
  rw [if_neg (by rw [boardAt_congr rfl]; exact hb)]

/-- When the heuristic's counting condition holds, `autoFlag` flags every
hidden unflagged neighbor and reports success. -/
theorem autoFlag_fires {g : Game} {row col : Int} {i j : Fin 8}
    (hi : toIdx row = some i) (hj : toIdx col = some j)
    (hmask : g.mask i j = true) (hpos : 0 < g.board i j)
    (hlen : 0 < (unopenedCells g row col).length)
    (hcond : g.board i j - ((flagCount g row col : Nat) : Int) =
      (((unopenedCells g row col).length : Nat) : Int)) :
    autoFlag g row col =
      ((unopenedCells g row col).foldl (fun g' p => setFlag g' p.1 p.2) g,
        true) := by
  unfold autoFlag
  rw [maskAtB_some hi hj, hmask, boardAt_some hi hj]
  dsimp only
  rw [if_neg (by simp), if_neg (by omega), if_pos ⟨hlen, hcond⟩]

/-- `autoFlag` never changes the mask. -/
theorem autoFlag_mask (g : Game) (row col : Int) :
    (autoFlag g row col).1.mask = g.mask := by
  unfold autoFlag
  split
  · rfl
  · split
    · rfl
    · split
      · rfl
      · dsimp only
        split
        · exact (flagsFold_frame _ _).2.1
        · rfl

theorem checkWin_mask (g : Game) (now : Int) :
    (checkWin g now).mask = g.mask := by
  rcases checkWin_cases g now with h | h <;> rw [h]

theorem clickAction_maskLe (g : Game) (row col now : Int) :
    maskLe g (clickAction g row col now) := by
  unfold clickAction
  split
  · -- chord branch
    unfold chordAction
    dsimp only
    split
    · split
      · exact revealAllMines_maskLe _
      · split
        · exact revealEach_maskLe _ g
        · exact revealEach_maskLe _ g
    · rcases haf : autoFlag g row col with ⟨g', b⟩
      have hmg : g'.mask = g.mask := by
        have := autoFlag_mask g row col
        rw [haf] at this
        exact this
      cases b
      · intro i j h; rw [hmg]; exact h
      · intro i j h; show g'.mask i j = true; rw [hmg]; exact h
  · split
    · -- direct branch
      unfold directAction
      dsimp only
      split
      · exact revealAllMines_maskLe _
      · exact @maskLe_trans g { g with moves := g.moves + 1 } _
          (fun _ _ h => h)
          (revealEmpty_maskLe _ row col MAX_REVEALS)
    · exact maskLe_refl g

/-- **C9.** Mask monotonicity: the flood fill, the auto-flag heuristic, and
a full cell-action (both click branches followed by the win check) never
hide a revealed cell. -/
theorem C9_mask_monotone (g : Game) (row col now b : Int) (i j : Fin 8)
    (hm : g.mask i j = true) :
    (revealEmpty g row col b).1.mask i j = true ∧
    (autoFlag g row col).1.mask i j = true ∧
    ∀ g', handleCellAction g row col now = Except.ok g' →
      g'.mask i j = true := by
  refine ⟨revealEmpty_maskLe g row col b i j hm, ?_, ?_⟩
  · rw [autoFlag_mask g row col]
    exact hm
  · intro g' hok
    unfold handleCellAction at hok
    split at hok
    · injection hok with h
      rw [← h]
      exact hm
    · split at hok
      · injection hok with h
        rw [← h, checkWin_mask]
        exact clickAction_maskLe g row col now i j hm
      · exact absurd hok (by simp)

/-- Witness game for the chord scenarios: cell `(2, 2)` (holding `1`) is
revealed and the non-mine neighbor `(1, 3)` is wrongly flagged, so the
flag count matches the cell value while the hidden neighbor `(1, 1)` is a
true mine. -/
def witChord : Game :=
  { witGame with
    mask := (fun i j => decide ((i : Nat) = 2 ∧ (j : Nat) = 2)),
    flags := (fun i j => decide ((i : Nat) = 1 ∧ (j : Nat) = 3)) }

/-- Witness game for the auto-flag scenario: rows 2–3 and the cells
`(1, 2)`, `(1, 3)` are revealed, nothing is flagged; the revealed `1` at
`(2, 2)` has exactly one hidden neighbor, `(1, 1)`. -/
def witAuto : Game :=
  { witGame with
    mask := fun i j =>
      decide ((i : Nat) = 2 ∧ (j : Nat) ≤ 3) || decide ((i : Nat) = 3) ||
        decide ((i : Nat) = 1 ∧ 2 ≤ (j : Nat) ∧ (j : Nat) ≤ 3) }

/-- Witness for `C9_mask_monotone` at a concrete state and click. -/
theorem C9_mask_monotone_wit :
    witChord.mask 2 2 = true ∧
    (revealEmpty witChord 0 0 MAX_REVEALS).1.mask 2 2 = true ∧
    (autoFlag witChord 0 0).1.mask 2 2 = true ∧
    (checkWin (clickAction witChord 0 0 5) 5).mask 2 2 = true := by
  refine ⟨by decide, ?_, ?_, ?_⟩
  · exact (C9_mask_monotone witChord 0 0 5 MAX_REVEALS 2 2 (by decide)).1
  · exact (C9_mask_monotone witChord 0 0 5 MAX_REVEALS 2 2 (by decide)).2.1
  · exact (C9_mask_monotone witChord 0 0 5 MAX_REVEALS 2 2 (by decide)).2.2
      (checkWin (clickAction witChord 0 0 5) 5) rfl

/-- **C4.** If a cell-action leaves the game unfinished and the flag counts
of the resulting intermediate state both equal `MINES`, the win check fires:
`won`, `gameOver` and `endTime` are all set — no matter how many safe cells
are still hidden. -/
theorem C4_win_check (g : Game) (row col now : Int) (i : Fin 8)
    (hi : toIdx row = some i) (hgo : g.gameOver = false)
    (hmid : (clickAction g row col now).gameOver = false)
    (hcf : correctFlags (clickAction g row col now) = MINES)
    (htf : totalFlags (clickAction g row col now) = MINES) :
    ∃ g', handleCellAction g row col now = Except.ok g' ∧
      g'.won = true ∧ g'.gameOver = true ∧ g'.endTime = some now := by
  refine ⟨_, handle_ok hgo hi col now, ?_⟩
  rw [checkWin_win hmid ⟨hcf, htf⟩ now]
  exact ⟨rfl, rfl, rfl⟩

/-- Fresh witness game with all ten mines correctly flagged. -/
def witFlagged : Game :=
  { witGame with
    flags := fun i j => decide ((i : Nat) = 0 ∨ ((i : Nat) = 1 ∧ (j : Nat) ≤ 1)) }

/-- Witness for `C4_win_check`: with all mines already flagged, the next
cell-action (here a click with an out-of-range column, which only counts a
move) triggers the win while 52 safe cells are still hidden. -/
theorem C4_win_check_wit :
    (clickAction witFlagged 0 9 7).gameOver = false ∧
    correctFlags (clickAction witFlagged 0 9 7) = MINES ∧
    totalFlags (clickAction witFlagged 0 9 7) = MINES ∧
    ∃ g', handleCellAction witFlagged 0 9 7 = Except.ok g' ∧
      g'.won = true ∧ g'.gameOver = true ∧ g'.endTime = some 7 :=
  ⟨by decide, by decide, by decide,
    C4_win_check witFlagged 0 9 7 0 (by decide) rfl (by decide) (by decide)
      (by decide)⟩

/-- **C10 (implicit).** Clicking an already revealed cell holding `0` (not
flagged, game in progress, win condition not holding — the invariants of a
reachable in-progress state) increments `moves` by one and changes nothing
else. -/
theorem C10_click_revealed_zero (g : Game) (row col now : Int) (i j : Fin 8)
    (hi : toIdx row = some i) (hj : toIdx col = some j)
    (hgo : g.gameOver = false) (hmask : g.mask i j = true)
    (hzero : g.board i j = 0) (hflag : g.flags i j = false)
    (hnw : ¬winCond g) :
    handleCellAction g row col now =
      Except.ok { g with moves := g.moves + 1 } := by
  rw [handle_ok hgo hi col now]
  have hc : (maskAtB g row col && boardGtZero (boardAt g row col)) = false := by
    rw [boardAt_some hi hj, hzero]
    simp [boardGtZero]
  have hf : flagsAtB g row col = false := by
    rw [flagsAtB_some hi hj]
    exact hflag
  rw [clickAction_direct now hc hf]
  have hb : boardAt g row col ≠ some (-1) := by
    rw [boardAt_some hi hj, hzero]
    simp
  rw [directAction_safe now hb]
  have hstop : revealEmpty { g with moves := g.moves + 1 } row col MAX_REVEALS =
      ({ g with moves := g.moves + 1 }, MAX_REVEALS) := by
    unfold revealEmpty
    rw [show FUEL = 64 + 1 from rfl]
    refine revealF_stop ?_
    rw [maskAtB_some hi hj]
    show (!isValidPosition row col || g.mask i j || _ || _) = true
    rw [hmask]
    simp
  rw [hstop]
  show Except.ok (checkWin { g with moves := g.moves + 1 } now) = _
  rw [checkWin_no_win
    (show ({ g with moves := g.moves + 1 } : Game).gameOver = false from hgo)
    (by rw [winCond_congr rfl rfl]; exact hnw) now]

/-- Witness for `C10_click_revealed_zero`: clicking the revealed empty cell
`(3, 3)` of a partly revealed game. -/
theorem C10_click_revealed_zero_wit :
    witAuto.mask 3 3 = true ∧ witAuto.board 3 3 = 0 ∧
    witAuto.flags 3 3 = false ∧ ¬winCond witAuto ∧
    handleCellAction witAuto 3 3 9 =
      Except.ok { witAuto with moves := witAuto.moves + 1 } :=
  ⟨by decide, by decide, by decide, by decide,
    C10_click_revealed_zero witAuto 3 3 9 3 3 (by decide) (by decide) rfl
      (by decide) (by decide) (by decide) (by decide)⟩

/-- **C6 (amended).** Out-of-range coordinates are *not* a uniform silent
no-op: a cell-action with an out-of-range row throws (`game.mask[row][col]`
is a `TypeError`), so nothing is persisted and storage keeps the old state;
but a cell-action with an in-range row and an out-of-range column falls
into the direct-click branch (`undefined` is falsy), increments `moves` by
one, and persists the changed state. -/
theorem C6_out_of_range (g : Game) (row col now : Int)
    (hgo : g.gameOver = false) :
    (toIdx row = none → handleCellAction g row col now = Except.error ()) ∧
    (∀ i : Fin 8, toIdx row = some i → toIdx col = none → ¬winCond g →
      handleCellAction g row col now =
        Except.ok { g with moves := g.moves + 1 }) := by
  constructor
  · intro hr
    unfold handleCellAction
    rw [hgo, hr]
    simp
  · intro i hi hc hnw
    rw [handle_ok hgo hi col now]
    have hm : maskAtB g row col = false := by
      unfold maskAtB
      rw [hi, hc]
    have hf : flagsAtB g row col = false := by
      unfold flagsAtB
      rw [hi, hc]
    have hcc : (maskAtB g row col && boardGtZero (boardAt g row col)) = false := by
      rw [hm]
      simp
    rw [clickAction_direct now hcc hf]
    have hb : boardAt g row col = none := by
      unfold boardAt
      rw [hi, hc]
    rw [directAction_safe now (by rw [hb]; simp)]
    have hval : isValidPosition row col = false := by
      rcases hvv : isValidPosition row col with _ | _
      · rfl
      · obtain ⟨_, ⟨j', hj'⟩⟩ := (isValid_iff row col).mp hvv
        rw [hj'] at hc
        exact absurd hc (by simp)
    have hstop : revealEmpty { g with moves := g.moves + 1 } row col MAX_REVEALS =
        ({ g with moves := g.moves + 1 }, MAX_REVEALS) := by
      unfold revealEmpty
      rw [show FUEL = 64 + 1 from rfl]
      exact revealF_stop (by simp [hval])
    rw [hstop]
    show Except.ok (checkWin { g with moves := g.moves + 1 } now) = _
    rw [checkWin_no_win
      (show ({ g with moves := g.moves + 1 } : Game).gameOver = false from hgo)
      (by rw [winCond_congr rfl rfl]; exact hnw) now]

/-- Witness for `C6_out_of_range` at concrete out-of-range coordinates. -/
theorem C6_out_of_range_wit :
    witGame.gameOver = false ∧
    handleCellAction witGame 9 0 0 = Except.error () ∧
    handleCellAction witGame 0 8 0 =
      Except.ok { witGame with moves := witGame.moves + 1 } :=
  ⟨rfl, (C6_out_of_range witGame 9 0 0 rfl).1 (by decide),
    (C6_out_of_range witGame 0 8 0 rfl).2 0 (by decide) (by decide) (by decide)⟩

/-- Counterexample to **C6** as stated: a click at the in-range row `0` and
the out-of-range column `8` of a fresh game is persisted with `moves`
incremented — the stored state is *not* unchanged. -/
theorem C6_counterexample :
    handleCellAction witGame 0 8 0 =
      Except.ok { witGame with moves := witGame.moves + 1 } ∧
    witGame.moves + 1 ≠ witGame.moves := by
  constructor
  · rfl
  · decide

/-! ## Claims C2 and C3: the chord resolver -/

set_option maxHeartbeats 1000000 in
/-- **C2.** A chord click on a revealed positive cell whose flagged-neighbor
count equals its value (on an in-progress, not-yet-won state whose flags do
not already satisfy the win condition — the invariants of a reachable
in-progress state): if some hidden unflagged neighbor is a mine, the game
ends unwon with every mine revealed; otherwise every previously hidden
unflagged neighbor is revealed and the game stays in progress. -/
theorem C2_chord_resolution (g : Game) (row col now : Int) (i j : Fin 8)
    (hi : toIdx row = some i) (hj : toIdx col = some j)
    (hgo : g.gameOver = false) (hwon : g.won = false)
    (hmask : g.mask i j = true) (hpos : 0 < g.board i j)
    (hfc : g.board i j = ((flagCount g row col : Nat) : Int)) :
    ∃ g', handleCellAction g row col now = Except.ok g' ∧
      ((∃ p ∈ unopenedCells g row col, boardAt g p.1 p.2 = some (-1)) →
        g'.gameOver = true ∧ g'.won = false ∧
        ∀ i' j' : Fin 8, g.board i' j' = -1 → g'.mask i' j' = true) ∧
      ((∀ p ∈ unopenedCells g row col, boardAt g p.1 p.2 ≠ some (-1)) →
        ¬winCond g →
        g'.gameOver = false ∧
        ∀ p ∈ unopenedCells g row col, maskAtB g' p.1 p.2 = true) := by
  have hfc' : boardAt g row col = some ((flagCount g row col : Nat) : Int) := by
    rw [boardAt_some hi hj, hfc]
  have hcond := chord_cond_true hi hj hmask hpos
  refine ⟨checkWin (clickAction g row col now) now, handle_ok hgo hi col now,
    ?_, ?_⟩
  · rintro ⟨p, hp, hpmine⟩
    have hany : ((unopenedCells g row col).any
        fun q => decide (boardAt g q.1 q.2 = some (-1))) = true := by
      rw [List.any_eq_true]
      exact ⟨p, hp, by simp [hpmine]⟩
    rw [clickAction_chord now hcond, chordAction_mine now hfc' hany,
      checkWin_gameOver rfl now]
    refine ⟨rfl, hwon, ?_⟩
    intro i' j' hmine
    exact revealAllMines_mask_mine i' j' hmine
  · intro hall hnw
    have hany : ((unopenedCells g row col).any
        fun q => decide (boardAt g q.1 q.2 = some (-1))) = false := by
      rw [List.any_eq_false]
      intro q hq
      simp only [decide_eq_true_eq]
      exact hall q hq
    rw [clickAction_chord now hcond, chordAction_safe now hfc' hany]
    have hframe := revealEach_frame (unopenedCells g row col) g
    have hmasks : ∀ p ∈ unopenedCells g row col, ∀ i' j' : Fin 8,
        toIdx p.1 = some i' → toIdx p.2 = some j' →
        (revealEach g (unopenedCells g row col)).mask i' j' = true := by
      refine revealEach_reveals _ g ?_
      intro p hp
      exact (mem_unopened hp).2.1
    have hgo1 : (revealEach g (unopenedCells g row col)).gameOver = false := by
      rw [hframe.2.2.1, hgo]
    have hnw1 : ¬winCond (revealEach g (unopenedCells g row col)) := by
      rw [winCond_congr hframe.2.1 hframe.1]
      exact hnw
    by_cases hlen : 0 < (unopenedCells g row col).length
    · rw [if_pos hlen]
      have hgo2 : ({ revealEach g (unopenedCells g row col) with
          moves := (revealEach g (unopenedCells g row col)).moves + 1 } :
            Game).gameOver = false := hgo1
      rw [checkWin_no_win hgo2 hnw1 now]
      refine ⟨hgo2, ?_⟩
      intro p hp
      obtain ⟨hval, _, _⟩ := mem_unopened hp
      obtain ⟨⟨i', hi'⟩, ⟨j', hj'⟩⟩ := (isValid_iff p.1 p.2).mp hval
      rw [maskAtB_some hi' hj']
      exact hmasks p hp i' j' hi' hj'
    · rw [if_neg hlen]
      rw [checkWin_no_win hgo1 hnw1 now]
      refine ⟨hgo1, ?_⟩
      intro p hp
      obtain ⟨hval, _, _⟩ := mem_unopened hp
      obtain ⟨⟨i', hi'⟩, ⟨j', hj'⟩⟩ := (isValid_iff p.1 p.2).mp hval
      rw [maskAtB_some hi' hj']
      exact hmasks p hp i' j' hi' hj'

/-- Witness for `C2_chord_resolution`: chording the revealed `1` at `(2, 2)`
with the wrong flag at `(1, 3)` hits the hidden mine at `(1, 1)`. -/
theorem C2_chord_resolution_wit :
    (witChord.mask 2 2 = true ∧ 0 < witChord.board 2 2 ∧
      witChord.board 2 2 = ((flagCount witChord 2 2 : Nat) : Int) ∧
      (∃ p ∈ unopenedCells witChord 2 2, boardAt witChord p.1 p.2 = some (-1))) ∧
    ∃ g', handleCellAction witChord 2 2 5 = Except.ok g' ∧
      g'.gameOver = true ∧ g'.won = false ∧
      ∀ i' j' : Fin 8, witChord.board i' j' = -1 → g'.mask i' j' = true := by
  refine ⟨⟨by decide, by decide, by decide, by decide⟩, ?_⟩
  obtain ⟨g', hok, hA, _⟩ := C2_chord_resolution witChord 2 2 5 2 2
    (by decide) (by decide) rfl rfl (by decide) (by decide) (by decide)
  obtain ⟨h1, h2, h3⟩ := hA (by decide)
  exact ⟨g', hok, h1, h2, h3⟩

set_option maxHeartbeats 1000000 in
/-- **C3.** A chord click on a revealed positive cell whose flagged-neighbor
count does *not* match its value applies the auto-flag heuristic: when the
number of hidden unflagged neighbors is positive and equals the cell value
minus the flag count, exactly those neighbors become flagged and `moves`
grows by one, with every other flag and the whole mask untouched; and the
heuristic branch cannot run when the flag count matches (then the direct
chord branch leaves all flags unchanged). -/
theorem C3_auto_flag (g : Game) (row col now : Int) (i j : Fin 8)
    (hi : toIdx row = some i) (hj : toIdx col = some j)
    (hgo : g.gameOver = false) (hmask : g.mask i j = true)
    (hpos : 0 < g.board i j) :
    ∃ g', handleCellAction g row col now = Except.ok g' ∧
      (g.board i j ≠ ((flagCount g row col : Nat) : Int) →
        0 < (unopenedCells g row col).length →
        g.board i j - ((flagCount g row col : Nat) : Int) =
          (((unopenedCells g row col).length : Nat) : Int) →
        (∀ p ∈ unopenedCells g row col, ∀ i' j' : Fin 8,
          toIdx p.1 = some i' → toIdx p.2 = some j' →
          g'.flags i' j' = true) ∧
        (∀ i' j' : Fin 8,
          ((((i' : Nat) : Int), ((j' : Nat) : Int)) ∉ unopenedCells g row col) →
          g'.flags i' j' = g.flags i' j') ∧
        g'.mask = g.mask ∧ g'.moves = g.moves + 1) ∧
      (g.board i j = ((flagCount g row col : Nat) : Int) →
        g'.flags = g.flags) := by
  have hcond := chord_cond_true hi hj hmask hpos
  refine ⟨checkWin (clickAction g row col now) now, handle_ok hgo hi col now,
    ?_, ?_⟩
  · intro hne hlen hcnt
    have hfcne : ¬(boardAt g row col =
        some ((flagCount g row col : Nat) : Int)) := by
      rw [boardAt_some hi hj]
      intro hcontra
      exact hne (Option.some_inj.mp hcontra)
    have hclick : clickAction g row col now =
        { (unopenedCells g row col).foldl (fun g' p => setFlag g' p.1 p.2) g with
          moves := ((unopenedCells g row col).foldl
            (fun g' p => setFlag g' p.1 p.2) g).moves + 1 } := by
      rw [clickAction_chord now hcond, chordAction_heuristic now hfcne,
        autoFlag_fires hi hj hmask hpos hlen hcnt]
    rw [hclick]
    have hfold := flagsFold_frame (unopenedCells g row col) g
    rcases checkWin_cases
      { (unopenedCells g row col).foldl (fun g' p => setFlag g' p.1 p.2) g with
        moves := ((unopenedCells g row col).foldl
          (fun g' p => setFlag g' p.1 p.2) g).moves + 1 } now with hcw | hcw <;>
      rw [hcw] <;>
      refine ⟨?_, ?_, ?_, ?_⟩
    · intro p hp i' j' hi' hj'
      exact flagsFold_sets (unopenedCells g row col) g p hp i' j' hi' hj'
    · intro i' j' hnm
      refine flagsFold_other (unopenedCells g row col) g i' j' ?_
      intro p hp hcontra
      obtain ⟨hpi, hpj⟩ := hcontra
      refine hnm ?_
      have hp1 : p.1 = ((i' : Nat) : Int) := (toIdx_val hpi).symm
      have hp2 : p.2 = ((j' : Nat) : Int) := (toIdx_val hpj).symm
      have : p = ((((i' : Nat) : Int)), (((j' : Nat) : Int))) := by
        rw [← hp1, ← hp2]
      rw [← this]
      exact hp
    · exact hfold.2.1
    · show ((unopenedCells g row col).foldl
          (fun g' p => setFlag g' p.1 p.2) g).moves + 1 = g.moves + 1
      rw [hfold.2.2.2.2.2.1]
    · intro p hp i' j' hi' hj'
      exact flagsFold_sets (unopenedCells g row col) g p hp i' j' hi' hj'
    · intro i' j' hnm
      refine flagsFold_other (unopenedCells g row col) g i' j' ?_
      intro p hp hcontra
      obtain ⟨hpi, hpj⟩ := hcontra
      refine hnm ?_
      have hp1 : p.1 = ((i' : Nat) : Int) := (toIdx_val hpi).symm
      have hp2 : p.2 = ((j' : Nat) : Int) := (toIdx_val hpj).symm
      have : p = ((((i' : Nat) : Int)), (((j' : Nat) : Int))) := by
        rw [← hp1, ← hp2]
      rw [← this]
      exact hp
    · exact hfold.2.1
    · show ((unopenedCells g row col).foldl
          (fun g' p => setFlag g' p.1 p.2) g).moves + 1 = g.moves + 1
      rw [hfold.2.2.2.2.2.1]
  · intro hfceq
    have hfc' : boardAt g row col =
        some ((flagCount g row col : Nat) : Int) := by
      rw [boardAt_some hi hj, hfceq]
    rw [clickAction_chord now hcond]
    rcases hany : ((unopenedCells g row col).any
        fun q => decide (boardAt g q.1 q.2 = some (-1))) with _ | _
    · rw [chordAction_safe now hfc' hany]
      have hframe := revealEach_frame (unopenedCells g row col) g
      by_cases hlen : 0 < (unopenedCells g row col).length
      · rw [if_pos hlen]
        rcases checkWin_cases { revealEach g (unopenedCells g row col) with
            moves := (revealEach g (unopenedCells g row col)).moves + 1 } now
          with hcw | hcw <;> rw [hcw] <;> exact hframe.2.1
      · rw [if_neg hlen]
        rcases checkWin_cases (revealEach g (unopenedCells g row col)) now
          with hcw | hcw <;> rw [hcw] <;> exact hframe.2.1
    · rw [chordAction_mine now hfc' hany, checkWin_gameOver rfl now]
      rfl

/-- Witness for `C3_auto_flag`: chording the revealed `1` at `(2, 2)` whose
only hidden neighbor is `(1, 1)` flags that neighbor. -/
theorem C3_auto_flag_wit :
    (witAuto.mask 2 2 = true ∧ 0 < witAuto.board 2 2 ∧
      witAuto.board 2 2 ≠ ((flagCount witAuto 2 2 : Nat) : Int) ∧
      0 < (unopenedCells witAuto 2 2).length ∧
      witAuto.board 2 2 - ((flagCount witAuto 2 2 : Nat) : Int) =
        (((unopenedCells witAuto 2 2).length : Nat) : Int)) ∧
    ∃ g', handleCellAction witAuto 2 2 5 = Except.ok g' ∧
      (∀ p ∈ unopenedCells witAuto 2 2, ∀ i' j' : Fin 8,
        toIdx p.1 = some i' → toIdx p.2 = some j' → g'.flags i' j' = true) ∧
      (∀ i' j' : Fin 8,
        ((((i' : Nat) : Int), ((j' : Nat) : Int)) ∉ unopenedCells witAuto 2 2) →
        g'.flags i' j' = witAuto.flags i' j') ∧
      g'.mask = witAuto.mask ∧ g'.moves = witAuto.moves + 1 := by
  refine ⟨⟨by decide, by decide, by decide, by decide, by decide⟩, ?_⟩
  obtain ⟨g', hok, hA, _⟩ := C3_auto_flag witAuto 2 2 5 2 2
    (by decide) (by decide) rfl (by decide) (by decide)
  obtain ⟨h1, h2, h3, h4⟩ := hA (by decide) (by decide) (by decide)
  exact ⟨g', hok, h1, h2, h3, h4⟩

end Minesweeper
